import Mathlib

/-!
Verification of the InvalidationGame simulator (invalidationgame.py).

The development shallowly embeds the core of the simulator:
rounding helpers, the endowment assigner (`calc_hashpower`), the mining
round engine (`mine_block`), the distance tracker (`calc_distance`),
the run driver (`run_simulation`), the batch aggregation
(`calc_averages`) and the analytic catch-up probability
(`attacker_success_probability`).  Random draws are modelled as oracle
inputs constrained to the support of the corresponding sampler, so a
theorem quantified over all valid draws covers every execution of the
program.  Chains and drawn-hash logs are kept as lists; sampled hash
and ticket sets are modelled by their underlying finite sets (their
order is never consulted by the program logic under study).  Percent
shares are embedded as rationals and Python's `round` (banker's
rounding) is modelled exactly by `pyRound`.
-/

/-- Python's built-in `round` on an exact rational: round half to even. -/
def pyRound (x : ℚ) : ℤ :=
  let f : ℤ := ⌊x⌋
  if x - f < 1/2 then f
  else if 1/2 < x - f then f + 1
  else if f % 2 = 0 then f else f + 1

/-- Python's `round(x, 2)`: round to two decimal places. -/
def pyRound2 (x : ℚ) : ℚ := (pyRound (x * 100) : ℚ) / 100

/-- Sample size used for an adversary's block hashes:
`round(round(float(a), 2) * 100)` (invalidationgame.py line 236). -/
def hashSampleSize (share : ℚ) : ℕ := (pyRound (pyRound2 share * 100)).toNat

/-- Sample size used for an adversary's tickets:
`round(round(float(s), 2) / 100 * pos_avg_ticket_pool_size)`
(invalidationgame.py line 247). -/
def ticketSampleSize (share : ℚ) (T : ℕ) : ℕ :=
  (pyRound (pyRound2 share / 100 * T)).toNat

/-- Modelled from the spec: the hash-endowment size that §8 of the spec
claims, `round(hashShare * hashSpaceSize / 10000 * 100)`, i.e. a count
proportional to the share within a space of size `H`.  It is stated here
only to be compared against `hashSampleSize`, the size the code uses. -/
def specHashSampleSize (share : ℚ) (H : ℕ) : ℕ :=
  (pyRound (share * H / 10000 * 100)).toNat

theorem pyRound_intCast (m : ℤ) : pyRound (m : ℚ) = m := by
  simp [pyRound]

theorem pyRound_natCast (n : ℕ) : pyRound (n : ℚ) = n := by
  simpa using pyRound_intCast (n : ℤ)

theorem pyRound2_natCast (n : ℕ) : pyRound2 ((n : ℚ) / 100) = (n : ℚ) / 100 := by
  have h : ((n : ℚ) / 100) * 100 = (n : ℚ) := by
    field_simp
  rw [pyRound2, h, pyRound_natCast]
  push_cast
  ring

theorem hashSampleSize_natCast (n : ℕ) : hashSampleSize ((n : ℚ) / 100) = n := by
  have h : ((n : ℚ) / 100) * 100 = (n : ℚ) := by
    field_simp
  rw [hashSampleSize, pyRound2_natCast, h, pyRound_natCast, Int.toNat_natCast]

/-! ## The catch-up probability function (`attacker_success_probability`) -/

/-- The Poisson weight `e^{-λ} λ^k / k!` computed exactly as the inner
loop of `attacker_success_probability` computes it: start from
`exp(-lambda_var)` and multiply by `lambda_var / i` for `i = 1 .. k`. -/
noncomputable def poissonIter (lam : ℝ) (k : ℕ) : ℝ :=
  (List.range k).foldl (fun acc (i : ℕ) => acc * (lam / ((i : ℝ) + 1)))
    (Real.exp (-lam))

/-- Function `attacker_success_probability(q, z)` (invalidationgame.py lines
761-773): `p = 1 - q`, `lambda = z * (q / p)`, then starting from
`sum_value = 1.0` subtract `poisson * (1 - (q/p)^(z-k))` for
`k = 0 .. z`. -/
noncomputable def attacker_success_probability (q : ℝ) (z : ℕ) : ℝ :=
  let p : ℝ := 1 - q
  let lam : ℝ := z * (q / p)
  (List.range (z + 1)).foldl
    (fun sv k => sv - poissonIter lam k * (1 - (q / p) ^ (z - k))) 1

theorem poissonIter_eq (lam : ℝ) (k : ℕ) :
    poissonIter lam k = Real.exp (-lam) * lam ^ k / (Nat.factorial k : ℝ) := by
  induction k with
  | zero => simp [poissonIter]
  | succ k ih =>
    have hk : ((Nat.factorial k : ℝ)) ≠ 0 := by positivity
    rw [poissonIter, List.range_succ, List.foldl_append] at *
    rw [ih]
    simp only [List.foldl_cons, List.foldl_nil, Nat.factorial_succ]
    push_cast
    field_simp
    ring

theorem foldl_sub_eq (f : ℕ → ℝ) (a : ℝ) (n : ℕ) :
    (List.range n).foldl (fun s k => s - f k) a = a - ∑ k ∈ Finset.range n, f k := by
  induction n generalizing a with
  | zero => simp
  | succ n ih =>
    rw [List.range_succ, List.foldl_append, ih, Finset.sum_range_succ]
    simp only [List.foldl_cons, List.foldl_nil]
    ring

/-- Claim C1: for every real `q` with `0 < q < 1` and every natural `z`,
`attacker_success_probability q z` equals
`1 - Σ_{k=0}^{z} Poisson(λ, k) * (1 - (q/p)^(z-k))` with `p = 1 - q`,
`λ = z * q / p` and `Poisson(λ, k) = e^{-λ} λ^k / k!`; in particular for
`z = 0` the function returns exactly `1`. -/
theorem attacker_success_probability_spec (q : ℝ) (z : ℕ)
    (h0 : 0 < q) (h1 : q < 1) :
    attacker_success_probability q z =
      1 - ∑ k ∈ Finset.range (z + 1),
        Real.exp (-((z : ℝ) * (q / (1 - q)))) * ((z : ℝ) * (q / (1 - q))) ^ k
          / (Nat.factorial k : ℝ) * (1 - (q / (1 - q)) ^ (z - k)) ∧
    attacker_success_probability q 0 = 1 := by
  constructor
  · rw [attacker_success_probability]
    rw [foldl_sub_eq (fun k =>
      poissonIter ((z : ℝ) * (q / (1 - q))) k * (1 - (q / (1 - q)) ^ (z - k))) 1 (z + 1)]
    congr 1
    refine Finset.sum_congr rfl (fun k _ => ?_)
    rw [poissonIter_eq]
  · rw [attacker_success_probability]
    simp [poissonIter_eq]

/-- Witness for `attacker_success_probability_spec` at `q = 1/2`, `z = 2`. -/
theorem attacker_success_probability_spec_witness :
    attacker_success_probability (1/2) 2 =
      1 - ∑ k ∈ Finset.range (2 + 1),
        Real.exp (-(((2 : ℕ) : ℝ) * ((1/2) / (1 - 1/2)))) * (((2 : ℕ) : ℝ) * ((1/2) / (1 - 1/2))) ^ k
          / (Nat.factorial k : ℝ) * (1 - ((1/2 : ℝ) / (1 - 1/2)) ^ (2 - k)) ∧
    attacker_success_probability (1/2) 0 = 1 :=
  attacker_success_probability_spec (1/2) 2 (by norm_num) (by norm_num)

/-! ## Simulator state -/

def block_hash_space : ℕ := 10000

def pos_avg_ticket_pool_size : ℕ := 40960

def pos_blocks_with_5votes : ℕ := 401716

def pos_blocks_with_4votes : ℕ := 22561

def pos_blocks_with_3votes : ℕ := 5617

def pos_blocks_with_votes : ℕ :=
  pos_blocks_with_5votes + pos_blocks_with_4votes + pos_blocks_with_3votes

def pos_prop_blocks_5votes : ℚ :=
  (pos_blocks_with_5votes : ℚ) / (pos_blocks_with_votes : ℚ)

def pos_prop_blocks_4votes : ℚ :=
  (pos_blocks_with_4votes : ℚ) / (pos_blocks_with_votes : ℚ)

def pos_prop_blocks_3votes : ℚ :=
  (pos_blocks_with_3votes : ℚ) / (pos_blocks_with_votes : ℚ)

/-- One block appended to an adversary's `chain` node: a mined pure-PoW
block, a mined PoW+PoS block (with the committee size and owned ticket
list recorded), or a synthetic rewind marker in either mode. -/
inductive Block where
  | powB (hash : ℕ) (fromCycle : ℕ)
  | posB (hash : ℕ) (fromCycle : ℕ) (onlineTickets : ℕ) (ownedTickets : List ℕ)
  | rewindPowB (hash : String)
  | rewindPosB (hash : String)
deriving DecidableEq

/-- The per-adversary mutable state kept in the global `adversaries`
dict.  `prob_block_hashes` and `prob_tickets` are the endowment samples
(modelled by their underlying sets; the program only tests membership
and takes lengths), `drawn_block_hashes` the log of won draws (distance
is measured on its length), `chain` the accepted blocks. -/
structure Adversary where
  hashpower : ℚ
  stakesize : ℚ
  prob_block_hashes : Finset ℕ
  prob_tickets : Finset ℕ
  drawn_block_hashes : List String
  drawn_tickets : List ℕ
  chain : List Block
  sum_blocks : ℕ
  validated_blocks : ℕ
  invalidated_blocks : ℕ
deriving DecidableEq

instance : Inhabited Adversary := ⟨⟨0, 0, ∅, ∅, [], [], [], 0, 0, 0⟩⟩

/-- Indexing into the adversary list (the dict keys `A0`, `A1`, ... in
insertion order). -/
def getA (advs : List Adversary) (i : ℕ) : Adversary := advs.getD i default

def advName (i : ℕ) : String := "A" ++ Nat.repr i

/-- The random draws consumed by one iteration of `mine_block`'s while
loop: the drawn block hash, and (stake mode only) the committee size
`pos_allowed_drawn_tickets` and the committee `drawn_tickets`. -/
structure Draw where
  hash : ℕ
  committeeSize : ℕ
  committee : List ℕ
deriving DecidableEq

/-- The cycle record written into `simulations["sims"][s]["cycles"]`. -/
structure CycleRec where
  drawn_block_hash : ℕ
  pow_winners : List ℕ
  pos_winners : List ℕ
deriving DecidableEq

/-- The run-level milestone fields of `simulations["sims"][s]`. -/
structure SimRecord where
  diff2 : ℤ
  diff6 : ℤ
  winner2 : Option String
  score2 : Option String
  winner6 : Option String
  score6 : Option String
deriving DecidableEq

/-- Record state at the start of a run: `run_simulation` sets both
milestones to `-1`. -/
def initSimRecord : SimRecord := ⟨-1, -1, none, none, none, none⟩

/-! ## The mining round engine (`mine_block`, lines 295-382) -/

/-- Support of the committee sample: `random.sample(range(1,
pos_avg_ticket_pool_size), k)` draws from ticket ids `1 .. T-1`
(line 340). -/
def committeeSupport (T : ℕ) : Finset ℕ := Finset.Ico 1 T

/-- A draw that the samplers of `mine_block` can actually produce:
the hash comes from `range(block_hash_space)`, the committee size from
`random.choices([5, 4, 3], ...)` and the committee is a duplicate-free
sample of that size from `range(1, T)`. -/
def drawValid (H T : ℕ) (d : Draw) : Prop :=
  d.hash < H ∧ d.committeeSize ∈ [5, 4, 3] ∧ d.committee.Nodup ∧
    d.committee.length = d.committeeSize ∧ ∀ t ∈ d.committee, t ∈ committeeSupport T

/-- How many committee tickets an adversary owns:
`len([t for t in drawn_tickets if t in adversaries[a]["prob_tickets"]])`. -/
def ownedCommitteeCount (a : Adversary) (d : Draw) : ℕ :=
  (d.committee.filter (fun t => decide (t ∈ a.prob_tickets))).length

/-- Whether some adversary's `prob_block_hashes` contains the drawn
hash (the `pow_winner` flag after the first for loop). -/
def anyWinnerB (advs : List Adversary) (d : Draw) : Bool :=
  advs.any (fun a => decide (d.hash ∈ a.prob_block_hashes))

/-- Indices of the PoW winners of a draw, in dict iteration order. -/
def powWinnersIdx (advs : List Adversary) (d : Draw) : List ℕ :=
  (List.range advs.length).filter
    (fun i => decide (d.hash ∈ (getA advs i).prob_block_hashes))

/-- Indices of the PoW winners that also reach the PoS majority
`total_tickets > pos_allowed_drawn_tickets // 2` (line 351). -/
def confirmedIdx (advs : List Adversary) (d : Draw) : List ℕ :=
  (powWinnersIdx advs d).filter
    (fun i => decide (ownedCommitteeCount (getA advs i) d > d.committeeSize / 2))

/-- The mutation one loop iteration of `mine_block` applies to a single
adversary.  `aw` is the `pow_winner` flag of the iteration (whether any
adversary won the hash draw): only then does the PoS block run.  A PoW
winner appends `str(hash)` to `drawn_block_hashes` (and, in pure PoW
mode, a block to its chain); in stake mode every adversary's
`drawn_tickets` is overwritten, a confirmed winner appends its chain
block and bumps `validated_blocks`, an unconfirmed winner bumps
`invalidated_blocks` and undoes its `drawn_block_hashes` append. -/
def stepAdv (stake : Bool) (cyc : ℕ) (d : Draw) (aw : Bool) (a : Adversary) :
    Adversary :=
  let a1 :=
    if d.hash ∈ a.prob_block_hashes then
      { a with drawn_block_hashes := a.drawn_block_hashes ++ [Nat.repr d.hash],
               chain := if stake then a.chain
                        else a.chain ++ [Block.powB d.hash cyc] }
    else a
  if stake && aw then
    let dt := d.committee.filter (fun t => decide (t ∈ a1.prob_tickets))
    let a2 := { a1 with drawn_tickets := dt }
    if d.hash ∈ a.prob_block_hashes then
      if dt.length > d.committeeSize / 2 then
        { a2 with validated_blocks := a2.validated_blocks + 1,
                  chain := a2.chain ++
                    [Block.posB d.hash cyc d.committeeSize dt] }
      else
        { a2 with invalidated_blocks := a2.invalidated_blocks + 1,
                  drawn_block_hashes := a2.drawn_block_hashes.dropLast }
    else a2
  else a1

/-- One iteration of `mine_block`'s while loop: the new adversary
states, the cycle record, and whether the attempt was accepted (the
loop's `pow_winner` flag still being true at the bottom). -/
def attempt (stake : Bool) (cyc : ℕ) (advs : List Adversary) (d : Draw) :
    List Adversary × CycleRec × Bool :=
  let aw := anyWinnerB advs d
  let pw := powWinnersIdx advs d
  let pos := if stake && aw then confirmedIdx advs d else []
  (advs.map (stepAdv stake cyc d aw),
   ⟨d.hash, pw, pos⟩,
   if stake then !pos.isEmpty else aw)

/-- Function `mine_block(s, cycle_height)`: repeat attempts until one is
accepted.  The oracle list supplies the randomness of each iteration;
`none` means the supplied oracle ran out before an accepted round
(the real loop would simply keep drawing). -/
def mine_block (stake : Bool) (cyc : ℕ) (advs : List Adversary) :
    List Draw → Option (List Adversary × CycleRec)
  | [] => none
  | d :: ds =>
    let r := attempt stake cyc advs d
    if r.2.2 then some (r.1, r.2.1) else mine_block stake cyc r.1 ds

/-- The winners whose chains an accepted round grows: the PoS-confirmed
winners in stake mode, all PoW winners in pure PoW mode. -/
def accWinners (stake : Bool) (r : CycleRec) : List ℕ :=
  if stake then r.pos_winners else r.pow_winners

/-- The `invalidated_blocks` increments of one attempt for adversary `i`:
one exactly when the attempt ran the PoS block and `i` won PoW but
missed the committee majority. -/
def invFlag (stake : Bool) (r : CycleRec) (i : ℕ) : ℕ :=
  if stake = true ∧ i ∈ r.pow_winners ∧ i ∉ r.pos_winners then 1 else 0

/-- Number of times adversary `i` gets an `invalidated_blocks`
increment while `mine_block` consumes the oracle `ds` (counting every
attempt processed, discarded ones included). -/
def invCount (stake : Bool) (cyc : ℕ) (advs : List Adversary)
    (ds : List Draw) (i : ℕ) : ℕ :=
  match ds with
  | [] => 0
  | d :: ds =>
    let r := attempt stake cyc advs d
    invFlag stake r.2.1 i + if r.2.2 then 0 else invCount stake cyc r.1 ds i

/-! ## The distance tracker (`calc_distance`, lines 384-478) -/

/-- Python string `<`: lexicographic comparison of code points. -/
def charListLt : List Char → List Char → Bool
  | [], [] => false
  | [], _ :: _ => true
  | _ :: _, [] => false
  | a :: as, b :: bs =>
    if a.toNat < b.toNat then true
    else if b.toNat < a.toNat then false
    else charListLt as bs

def pyStrLt (x y : String) : Bool := charListLt x.data y.data

/-- Python's `max(winner_list, key=winner_list.get)`: scan the pairs in
dict order keeping the first pair whose value is maximal under string
comparison. -/
def pyMaxPair (l : List (String × String)) : Option (String × String) :=
  l.foldl
    (fun best p =>
      match best with
      | none => some p
      | some b => if pyStrLt b.2 p.2 then some p else some b)
    none

/-- The `winner_list` dict built at a milestone: adversary name mapped
to `str(sum_blocks)` (lines 422-423 and 438-439). -/
def winnerListOf (advs : List Adversary) : List (String × String) :=
  (List.range advs.length).map
    (fun i => (advName i, Nat.repr (getA advs i).sum_blocks))

/-- The `seq` list of chain heights: `len(drawn_block_hashes)` per
adversary (lines 390-392). -/
def seqOf (advs : List Adversary) : List ℕ :=
  advs.map (fun a => a.drawn_block_hashes.length)

/-- The `distances` list `[abs(i - j) for i in seq for j in seq if i != j]`
(line 409). -/
def distancesOf (advs : List Adversary) : List ℕ :=
  (seqOf advs).flatMap
    (fun i => ((seqOf advs).filter (fun j => decide (j ≠ i))).map
      (fun j => max i j - min i j))

/-- The `calculated_distance` value: `max(distances)`, or `0` when the list is
empty (the `ValueError` branch, lines 410-413). -/
def calcDistValue (advs : List Adversary) : ℕ :=
  (distancesOf advs).foldr max 0

/-- Result of `calc_distance`: the updated run record and the distance,
or the fatal `exit(5)` of the distance-invariant violation branch. -/
inductive DistResult where
  | ok (rec : SimRecord) (dist : ℕ)
  | fatal (code : ℕ)
deriving DecidableEq

/-- Function `calc_distance(s, cycle_height)`: returns 0 before the first cycle;
otherwise computes the maximum pairwise distance, records the 2-block
milestone (first time only) or the 6-block milestone with the
`winner_list` string-maximum, and aborts with exit code 5 on a distance
above 6.  The informational catching-up probability written to the
cycle record (lines 454-476) does not touch any state read here and is
omitted. -/
def calc_distance (advs : List Adversary) (rec : SimRecord) (ch : ℕ) :
    DistResult :=
  if ch < 1 then .ok rec 0
  else if calcDistValue advs = 2 ∧ rec.diff2 = -1 then
    .ok { rec with diff2 := (ch : ℤ) + 1,
                   winner2 := (pyMaxPair (winnerListOf advs)).map (fun p => p.1),
                   score2 := (pyMaxPair (winnerListOf advs)).map (fun p => p.2) }
      (calcDistValue advs)
  else if calcDistValue advs = 6 then
    .ok { rec with diff6 := (ch : ℤ) + 1,
                   winner6 := (pyMaxPair (winnerListOf advs)).map (fun p => p.1),
                   score6 := (pyMaxPair (winnerListOf advs)).map (fun p => p.2) }
      (calcDistValue advs)
  else if 6 < calcDistValue advs then .fatal 5
  else .ok rec (calcDistValue advs)

/-! ## The run driver (`run_simulation`, lines 481-518) -/

/-- After `mine_block`, `run_simulation` refreshes every `sum_blocks`
from `len(drawn_block_hashes)` (lines 493-495). -/
def updateSums (advs : List Adversary) : List Adversary :=
  advs.map (fun a => { a with sum_blocks := a.drawn_block_hashes.length })

/-- Outcome of a run: normal termination (with the final observed
distance), the fatal batch abort of `calc_distance`, or oracle
exhaustion (the real loop would keep running). -/
inductive RunOutcome where
  | done (advs : List Adversary) (rec : SimRecord) (height : ℕ) (dist : ℕ)
  | fatal (code : ℕ)
  | fuelOut
deriving DecidableEq

/-- The `while calc_distance(s, cycle_height) < 6` loop of
`run_simulation`: check the distance, and while it is below 6 mine one
block, refresh `sum_blocks` and advance `cycle_height`.  `fuel`
supplies the per-cycle mining oracles. -/
def run_simulation (stake : Bool) : List (List Draw) → List Adversary → SimRecord →
    ℕ → RunOutcome
  | fuel, advs, rec, ch =>
    match calc_distance advs rec ch with
    | .fatal c => .fatal c
    | .ok rec2 dist =>
      if dist < 6 then
        match fuel with
        | [] => .fuelOut
        | ds :: rest =>
          match mine_block stake ch advs ds with
          | none => .fuelOut
          | some (advs2, _) => run_simulation stake rest (updateSums advs2) rec2 (ch + 1)
      else .done advs rec2 ch dist

/-- Replace the element at one index (the only adversary
`setup_block_rewind` touches). -/
def modifyIdx (f : Adversary → Adversary) : ℕ → List Adversary → List Adversary
  | _, [] => []
  | 0, a :: as => f a :: as
  | n + 1, a :: as => a :: modifyIdx f n as

/-- Function `setup_block_rewind(s, rewind_blocks, rewind_adv)` (lines 265-287):
pre-populate adversary `radv` with `rewind` fake blocks `RWB0, RWB1, ...`,
appending to both `drawn_block_hashes` and `chain` (also writing one
cycle record per fake block, so the run starts at
`cycle_height = rewind`). -/
def setup_block_rewind (stake : Bool) (advs : List Adversary)
    (radv rewind : ℕ) : List Adversary :=
  (List.range rewind).foldl
    (fun st b =>
      modifyIdx
        (fun a =>
          { a with
            drawn_block_hashes := a.drawn_block_hashes ++ ["RWB" ++ Nat.repr b],
            chain := a.chain ++
              [if stake then Block.rewindPosB ("RWB" ++ Nat.repr b)
               else Block.rewindPowB ("RWB" ++ Nat.repr b)] })
        radv st)
    advs

/-- Result of the CLI precondition check `sanity_check` (lines
149-175): `ok` or the `exit` code taken. -/
inductive CheckResult where
  | ok
  | bad (code : ℕ)
deriving DecidableEq

/-- Function `sanity_check(adv_hashpower, adv_stake, rewind_adv)`: at least two
adversaries, hashpower percentages (rounded to two decimals) summing to
100, in stake mode the stake percentages summing to 100 with matching
length, and a rewind adversary index inside the list.  `rewind_blocks`
is never inspected. -/
def sanity_check (hp st : List ℚ) (radv : ℕ) : CheckResult :=
  if hp.length < 2 then .bad 1
  else if (hp.map pyRound2).sum ≠ 100 then .bad 2
  else if st ≠ [] ∧ (st.map pyRound2).sum ≠ 100 then .bad 3
  else if st ≠ [] ∧ hp.length ≠ st.length then .bad 1
  else if radv + 1 > hp.length then .bad 4
  else .ok

/-! ## The endowment assigner (`calc_hashpower`, lines 222-262) -/

/-- A fresh adversary entry as the first loop of `calc_hashpower`
creates it, with its hash endowment sample. -/
def mkBaseAdv (hp : ℚ) (smp : Finset ℕ) : Adversary :=
  { hashpower := hp, stakesize := 0, prob_block_hashes := smp,
    prob_tickets := ∅, drawn_block_hashes := [], drawn_tickets := [],
    chain := [], sum_blocks := 0, validated_blocks := 0,
    invalidated_blocks := 0 }

/-- The second loop of `calc_hashpower`: walk the adversaries with
their stake shares and sampled ticket sets, checking each sample
against the current shared pool (a valid `random.sample` draws a
duplicate-free subset of the requested size from the remaining pool)
and removing it from the pool before the next adversary. -/
def assignTickets (T : ℕ) : List Adversary → List (ℚ × Finset ℕ) → Finset ℕ →
    Option (List Adversary)
  | [], [], _ => some []
  | adv :: advs, (s, smp) :: rest, pool =>
    if smp ⊆ pool ∧ smp.card = ticketSampleSize s T then
      (assignTickets T advs rest (pool \ smp)).map
        (fun tail =>
          { adv with stakesize := s, prob_tickets := smp,
                     validated_blocks := 0, invalidated_blocks := 0 } :: tail)
    else none
  | _, _, _ => none

/-- Function `calc_hashpower(adv_hashpower, adv_stake)`: build one adversary per
hash share with an endowment sample of size `hashSampleSize` drawn from
`range(H)` (samples of distinct adversaries may overlap), then in stake
mode assign the disjoint ticket samples from the shrinking shared pool
`range(T)`.  Each share comes paired with its oracle sample; `none`
models a sample the library could not have produced. -/
def calc_hashpower (stake : Bool) (H T : ℕ) (hp : List (ℚ × Finset ℕ))
    (st : List (ℚ × Finset ℕ)) : Option (List Adversary) :=
  if hp.all (fun p => decide (p.2 ⊆ Finset.range H) &&
      decide (p.2.card = hashSampleSize p.1)) then
    let base := hp.map (fun p => mkBaseAdv p.1 p.2)
    if stake then assignTickets T base st (Finset.range T)
    else some base
  else none

/-! ## Batch aggregation (`calc_averages`, lines 555-610) -/

/-- The per-run data `calc_averages` reads back from
`simulations["sims"]`: the recorded 6-block winner and the final
`sum_blocks` snapshot per adversary name. -/
structure RunSummary where
  winner6 : String
  sums : List (String × ℕ)
deriving DecidableEq

def getSum (r : RunSummary) (a : String) : ℕ :=
  ((r.sums.find? (fun p => p.1 = a)).map (fun p => p.2)).getD 0

/-- Python's `statistics.mean` on exact rationals. -/
def statsMean (l : List ℚ) : ℚ := l.sum / (l.length : ℚ)

/-- Python's `round(x, 6)` applied to the reported averages. -/
def round6 (x : ℚ) : ℚ := (pyRound (x * 1000000) : ℚ) / 1000000

/-- The per-adversary part of `calc_averages` (lines 578-589): walk the
runs once accumulating `win_counts` and appending to `sum_blocks_list`,
then report the win count and `round(statistics.mean(...), 6)`. -/
def calcAveragesFor (runs : List RunSummary) (a : String) : ℕ × ℚ :=
  let acc := runs.foldl
    (fun (acc : ℕ × List ℚ) r =>
      ((if r.winner6 = a then acc.1 + 1 else acc.1),
        acc.2 ++ [(getSum r a : ℚ)]))
    (0, [])
  (acc.1, round6 (statsMean acc.2))

/-! ## Basic lemmas about the engine -/

theorem getA_map (advs : List Adversary) (f : Adversary → Adversary) (i : ℕ)
    (h : i < advs.length) : getA (advs.map f) i = f (getA advs i) := by
  simp [getA, List.getD_eq_getElem?_getD, List.getElem?_map,
    List.getElem?_eq_getElem h]

theorem getA_eq_getElem (advs : List Adversary) (i : ℕ) (h : i < advs.length) :
    getA advs i = advs.get ⟨i, h⟩ := by
  simp [getA, List.getD_eq_getElem?_getD, List.getElem?_eq_getElem h]

theorem getA_mem (advs : List Adversary) (i : ℕ) (h : i < advs.length) :
    getA advs i ∈ advs := by
  rw [getA_eq_getElem advs i h]
  exact List.get_mem advs i h

theorem mem_powWinnersIdx (advs : List Adversary) (d : Draw) (i : ℕ) :
    i ∈ powWinnersIdx advs d ↔
      i < advs.length ∧ d.hash ∈ (getA advs i).prob_block_hashes := by
  simp [powWinnersIdx, List.mem_filter, List.mem_range]

theorem mem_confirmedIdx (advs : List Adversary) (d : Draw) (i : ℕ) :
    i ∈ confirmedIdx advs d ↔
      i ∈ powWinnersIdx advs d ∧
        ownedCommitteeCount (getA advs i) d > d.committeeSize / 2 := by
  simp [confirmedIdx, List.mem_filter]

theorem anyWinnerB_eq_false (advs : List Adversary) (d : Draw) :
    anyWinnerB advs d = false ↔ ∀ a ∈ advs, d.hash ∉ a.prob_block_hashes := by
  simp [anyWinnerB]

theorem anyWinnerB_of_winner (advs : List Adversary) (d : Draw) (i : ℕ)
    (h : i < advs.length) (hw : d.hash ∈ (getA advs i).prob_block_hashes) :
    anyWinnerB advs d = true := by
  simp only [anyWinnerB, List.any_eq_true]
  exact ⟨getA advs i, getA_mem advs i h, by simpa using hw⟩

theorem powWinnersIdx_eq_nil_of_no_winner (advs : List Adversary) (d : Draw)
    (h : anyWinnerB advs d = false) : powWinnersIdx advs d = [] := by
  rw [List.eq_nil_iff_forall_not_mem]
  intro i hi
  rw [mem_powWinnersIdx] at hi
  exact (anyWinnerB_eq_false advs d).mp h _ (getA_mem advs i hi.1) hi.2

theorem stepAdv_of_not_winner (stake : Bool) (cyc : ℕ) (d : Draw) (aw : Bool)
    (a : Adversary) (hw : d.hash ∉ a.prob_block_hashes) :
    stepAdv stake cyc d aw a =
      if stake && aw then
        { a with drawn_tickets :=
            d.committee.filter (fun t => decide (t ∈ a.prob_tickets)) }
      else a := by
  simp [stepAdv, hw]

theorem stepAdv_pow_winner (cyc : ℕ) (d : Draw) (aw : Bool) (a : Adversary)
    (hw : d.hash ∈ a.prob_block_hashes) :
    stepAdv false cyc d aw a =
      { a with drawn_block_hashes := a.drawn_block_hashes ++ [Nat.repr d.hash],
               chain := a.chain ++ [Block.powB d.hash cyc] } := by
  simp [stepAdv, hw]

theorem stepAdv_stake_confirmed (cyc : ℕ) (d : Draw) (a : Adversary)
    (hw : d.hash ∈ a.prob_block_hashes)
    (hc : ownedCommitteeCount a d > d.committeeSize / 2) :
    stepAdv true cyc d true a =
      { a with drawn_block_hashes := a.drawn_block_hashes ++ [Nat.repr d.hash],
               drawn_tickets :=
                 d.committee.filter (fun t => decide (t ∈ a.prob_tickets)),
               validated_blocks := a.validated_blocks + 1,
               chain := a.chain ++
                 [Block.posB d.hash cyc d.committeeSize
                   (d.committee.filter (fun t => decide (t ∈ a.prob_tickets)))] } := by
  rw [ownedCommitteeCount] at hc
  simp [stepAdv, hw, hc]

theorem stepAdv_stake_invalidated (cyc : ℕ) (d : Draw) (a : Adversary)
    (hw : d.hash ∈ a.prob_block_hashes)
    (hc : ¬ ownedCommitteeCount a d > d.committeeSize / 2) :
    stepAdv true cyc d true a =
      { a with drawn_tickets :=
                 d.committee.filter (fun t => decide (t ∈ a.prob_tickets)),
               invalidated_blocks := a.invalidated_blocks + 1 } := by
  rw [ownedCommitteeCount] at hc
  simp [stepAdv, hw, hc, List.dropLast_concat]

theorem attempt_length (stake : Bool) (cyc : ℕ) (advs : List Adversary)
    (d : Draw) : (attempt stake cyc advs d).1.length = advs.length := by
  simp [attempt]

theorem attempt_getA (stake : Bool) (cyc : ℕ) (advs : List Adversary) (d : Draw)
    (i : ℕ) (h : i < advs.length) :
    getA (attempt stake cyc advs d).1 i =
      stepAdv stake cyc d (anyWinnerB advs d) (getA advs i) := by
  simpa [attempt] using getA_map advs (stepAdv stake cyc d (anyWinnerB advs d)) i h

theorem mem_accWinners_iff (stake : Bool) (cyc : ℕ) (advs : List Adversary)
    (d : Draw) (i : ℕ) (h : i < advs.length) :
    i ∈ accWinners stake (attempt stake cyc advs d).2.1 ↔
      d.hash ∈ (getA advs i).prob_block_hashes ∧
        (stake = true →
          ownedCommitteeCount (getA advs i) d > d.committeeSize / 2) := by
  cases stake with
  | false =>
    simp [attempt, accWinners, mem_powWinnersIdx, h]
  | true =>
    by_cases haw : anyWinnerB advs d = true
    · simp [attempt, accWinners, haw, mem_confirmedIdx, mem_powWinnersIdx, h]
    · rw [Bool.not_eq_true] at haw
      constructor
      · intro hm
        simp [attempt, accWinners, haw] at hm
      · rintro ⟨hw, -⟩
        exact absurd (anyWinnerB_of_winner advs d i h hw) (by simp [haw])

theorem attempt_acc_false_accWinners_nil (stake : Bool) (cyc : ℕ)
    (advs : List Adversary) (d : Draw)
    (hacc : (attempt stake cyc advs d).2.2 = false) :
    accWinners stake (attempt stake cyc advs d).2.1 = [] := by
  cases stake with
  | false =>
    simp only [attempt, Bool.false_and, if_false, Bool.if_false_left] at hacc ⊢
    exact powWinnersIdx_eq_nil_of_no_winner advs d (by simpa using hacc)
  | true =>
    simp only [attempt, accWinners] at hacc ⊢
    simpa using hacc

theorem attempt_drawn (stake : Bool) (cyc : ℕ) (advs : List Adversary) (d : Draw)
    (i : ℕ) (h : i < advs.length) :
    (getA (attempt stake cyc advs d).1 i).drawn_block_hashes =
      (getA advs i).drawn_block_hashes ++
        (if i ∈ accWinners stake (attempt stake cyc advs d).2.1
         then [Nat.repr d.hash] else []) := by
  rw [attempt_getA stake cyc advs d i h]
  by_cases hw : d.hash ∈ (getA advs i).prob_block_hashes
  · have haw := anyWinnerB_of_winner advs d i h hw
    cases stake with
    | false =>
      have hm : i ∈ accWinners false (attempt false cyc advs d).2.1 :=
        (mem_accWinners_iff false cyc advs d i h).mpr ⟨hw, by simp⟩
      rw [stepAdv_pow_winner cyc d _ _ hw, if_pos hm]
    | true =>
      rw [haw]
      by_cases hc : ownedCommitteeCount (getA advs i) d > d.committeeSize / 2
      · have hm : i ∈ accWinners true (attempt true cyc advs d).2.1 :=
          (mem_accWinners_iff true cyc advs d i h).mpr ⟨hw, fun _ => hc⟩
        rw [stepAdv_stake_confirmed cyc d _ hw hc, if_pos hm]
      · have hm : i ∉ accWinners true (attempt true cyc advs d).2.1 := by
          intro hm
          exact hc (((mem_accWinners_iff true cyc advs d i h).mp hm).2 rfl)
        rw [stepAdv_stake_invalidated cyc d _ hw hc, if_neg hm]
        simp
  · have hm : i ∉ accWinners stake (attempt stake cyc advs d).2.1 := by
      intro hm
      exact hw ((mem_accWinners_iff stake cyc advs d i h).mp hm).1
    rw [stepAdv_of_not_winner stake cyc d _ _ hw, if_neg hm]
    split <;> simp

theorem attempt_chain_of_mem (stake : Bool) (cyc : ℕ) (advs : List Adversary)
    (d : Draw) (i : ℕ) (h : i < advs.length)
    (hm : i ∈ accWinners stake (attempt stake cyc advs d).2.1) :
    (getA (attempt stake cyc advs d).1 i).chain.length =
      (getA advs i).chain.length + 1 := by
  obtain ⟨hw, hc⟩ := (mem_accWinners_iff stake cyc advs d i h).mp hm
  rw [attempt_getA stake cyc advs d i h]
  cases stake with
  | false => rw [stepAdv_pow_winner cyc d _ _ hw]; simp
  | true =>
    rw [anyWinnerB_of_winner advs d i h hw,
      stepAdv_stake_confirmed cyc d _ hw (hc rfl)]
    simp

theorem attempt_chain_of_not_mem (stake : Bool) (cyc : ℕ) (advs : List Adversary)
    (d : Draw) (i : ℕ) (h : i < advs.length)
    (hm : i ∉ accWinners stake (attempt stake cyc advs d).2.1) :
    (getA (attempt stake cyc advs d).1 i).chain = (getA advs i).chain := by
  rw [attempt_getA stake cyc advs d i h]
  by_cases hw : d.hash ∈ (getA advs i).prob_block_hashes
  · cases stake with
    | false =>
      exact absurd ((mem_accWinners_iff false cyc advs d i h).mpr ⟨hw, by simp⟩) hm
    | true =>
      by_cases hc : ownedCommitteeCount (getA advs i) d > d.committeeSize / 2
      · exact absurd
          ((mem_accWinners_iff true cyc advs d i h).mpr ⟨hw, fun _ => hc⟩) hm
      · rw [anyWinnerB_of_winner advs d i h hw,
          stepAdv_stake_invalidated cyc d _ hw hc]
  · rw [stepAdv_of_not_winner stake cyc d _ _ hw]
    split <;> rfl

theorem attempt_inv (stake : Bool) (cyc : ℕ) (advs : List Adversary) (d : Draw)
    (i : ℕ) (h : i < advs.length) :
    (getA (attempt stake cyc advs d).1 i).invalidated_blocks =
      (getA advs i).invalidated_blocks +
        invFlag stake (attempt stake cyc advs d).2.1 i := by
  rw [attempt_getA stake cyc advs d i h]
  have hpw : (attempt stake cyc advs d).2.1.pow_winners = powWinnersIdx advs d := rfl
  by_cases hw : d.hash ∈ (getA advs i).prob_block_hashes
  · have haw := anyWinnerB_of_winner advs d i h hw
    have hiw : i ∈ (attempt stake cyc advs d).2.1.pow_winners := by
      rw [hpw, mem_powWinnersIdx]; exact ⟨h, hw⟩
    cases stake with
    | false =>
      rw [stepAdv_pow_winner cyc d _ _ hw]
      simp [invFlag]
    | true =>
      have hpos : (attempt true cyc advs d).2.1.pos_winners = confirmedIdx advs d := by
        simp [attempt, haw]
      by_cases hc : ownedCommitteeCount (getA advs i) d > d.committeeSize / 2
      · have hip : i ∈ (attempt true cyc advs d).2.1.pos_winners := by
          rw [hpos, mem_confirmedIdx]
          exact ⟨(mem_powWinnersIdx advs d i).mpr ⟨h, hw⟩, hc⟩
        rw [anyWinnerB_of_winner advs d i h hw, stepAdv_stake_confirmed cyc d _ hw hc]
        simp [invFlag, hip]
      · have hip : i ∉ (attempt true cyc advs d).2.1.pos_winners := by
          rw [hpos, mem_confirmedIdx]
          rintro ⟨-, hcc⟩
          exact hc hcc
        rw [anyWinnerB_of_winner advs d i h hw, stepAdv_stake_invalidated cyc d _ hw hc]
        simp [invFlag, hiw, hip]
  · have hiw : i ∉ (attempt stake cyc advs d).2.1.pow_winners := by
      rw [hpw, mem_powWinnersIdx]
      rintro ⟨-, hww⟩
      exact hw hww
    rw [stepAdv_of_not_winner stake cyc d _ _ hw]
    have : invFlag stake (attempt stake cyc advs d).2.1 i = 0 := by
      simp [invFlag, hiw]
    rw [this]
    split <;> rfl

theorem attempt_no_winner (stake : Bool) (cyc : ℕ) (advs : List Adversary)
    (d : Draw) (haw : anyWinnerB advs d = false) :
    (attempt stake cyc advs d).1 = advs := by
  simp only [attempt]
  have hstep : ∀ a ∈ advs, stepAdv stake cyc d (anyWinnerB advs d) a = a := by
    intro a ha
    have hw : d.hash ∉ a.prob_block_hashes :=
      (anyWinnerB_eq_false advs d).mp haw a ha
    rw [stepAdv_of_not_winner stake cyc d _ _ hw, haw]
    simp
  rw [List.map_congr_left hstep]
  exact List.map_id advs

theorem mine_block_length (stake : Bool) (cyc : ℕ) (advs : List Adversary)
    (ds : List Draw) (st2 : List Adversary) (rec : CycleRec)
    (h : mine_block stake cyc advs ds = some (st2, rec)) :
    st2.length = advs.length := by
  induction ds generalizing advs with
  | nil => simp [mine_block] at h
  | cons d ds ih =>
    by_cases hacc : (attempt stake cyc advs d).2.2 = true
    · simp only [mine_block, hacc, if_true, Option.some.injEq, Prod.mk.injEq] at h
      rw [← h.1, attempt_length]
    · simp only [mine_block, hacc, if_false, Bool.false_eq_true] at h
      rw [ih _ h, attempt_length]

theorem mine_block_chain (stake : Bool) (cyc : ℕ) (advs : List Adversary)
    (ds : List Draw) (st2 : List Adversary) (rec : CycleRec)
    (h : mine_block stake cyc advs ds = some (st2, rec)) (i : ℕ)
    (hi : i < advs.length) :
    (i ∈ accWinners stake rec →
      (getA st2 i).chain.length = (getA advs i).chain.length + 1) ∧
    (i ∉ accWinners stake rec → (getA st2 i).chain = (getA advs i).chain) := by
  induction ds generalizing advs with
  | nil => simp [mine_block] at h
  | cons d ds ih =>
    by_cases hacc : (attempt stake cyc advs d).2.2 = true
    · simp only [mine_block, hacc, if_true, Option.some.injEq, Prod.mk.injEq] at h
      rw [← h.1, ← h.2]
      exact ⟨attempt_chain_of_mem stake cyc advs d i hi,
        attempt_chain_of_not_mem stake cyc advs d i hi⟩
    · simp only [mine_block, hacc, if_false, Bool.false_eq_true] at h
      have hi2 : i < (attempt stake cyc advs d).1.length := by
        rw [attempt_length]; exact hi
      have hfr : (getA (attempt stake cyc advs d).1 i).chain = (getA advs i).chain := by
        refine attempt_chain_of_not_mem stake cyc advs d i hi ?_
        rw [attempt_acc_false_accWinners_nil stake cyc advs d
          (Bool.not_eq_true _ ▸ hacc)]
        simp
      obtain ⟨h1, h2⟩ := ih _ h hi2
      exact ⟨fun hm => by rw [h1 hm, hfr], fun hm => by rw [h2 hm, hfr]⟩

theorem mine_block_drawn (stake : Bool) (cyc : ℕ) (advs : List Adversary)
    (ds : List Draw) (st2 : List Adversary) (rec : CycleRec)
    (h : mine_block stake cyc advs ds = some (st2, rec)) (i : ℕ)
    (hi : i < advs.length) :
    (getA st2 i).drawn_block_hashes =
      (getA advs i).drawn_block_hashes ++
        (if i ∈ accWinners stake rec then [Nat.repr rec.drawn_block_hash]
         else []) := by
  induction ds generalizing advs with
  | nil => simp [mine_block] at h
  | cons d ds ih =>
    by_cases hacc : (attempt stake cyc advs d).2.2 = true
    · simp only [mine_block, hacc, if_true, Option.some.injEq, Prod.mk.injEq] at h
      rw [← h.1, ← h.2, attempt_drawn stake cyc advs d i hi]
      rfl
    · simp only [mine_block, hacc, if_false, Bool.false_eq_true] at h
      have hi2 : i < (attempt stake cyc advs d).1.length := by
        rw [attempt_length]; exact hi
      have hfr : (getA (attempt stake cyc advs d).1 i).drawn_block_hashes =
          (getA advs i).drawn_block_hashes := by
        rw [attempt_drawn stake cyc advs d i hi,
          attempt_acc_false_accWinners_nil stake cyc advs d
            (Bool.not_eq_true _ ▸ hacc)]
        simp
      rw [ih _ h hi2, hfr]

theorem mine_block_inv (stake : Bool) (cyc : ℕ) (advs : List Adversary)
    (ds : List Draw) (st2 : List Adversary) (rec : CycleRec)
    (h : mine_block stake cyc advs ds = some (st2, rec)) (i : ℕ)
    (hi : i < advs.length) :
    (getA st2 i).invalidated_blocks =
      (getA advs i).invalidated_blocks + invCount stake cyc advs ds i := by
  induction ds generalizing advs with
  | nil => simp [mine_block] at h
  | cons d ds ih =>
    by_cases hacc : (attempt stake cyc advs d).2.2 = true
    · simp only [mine_block, hacc, if_true, Option.some.injEq, Prod.mk.injEq] at h
      rw [← h.1, attempt_inv stake cyc advs d i hi]
      simp [invCount, hacc]
    · simp only [mine_block, hacc, if_false, Bool.false_eq_true] at h
      have hi2 : i < (attempt stake cyc advs d).1.length := by
        rw [attempt_length]; exact hi
      rw [ih _ h hi2, attempt_inv stake cyc advs d i hi]
      simp only [invCount, hacc]
      simp [Nat.add_assoc]

/-! ## Distance lemmas -/

theorem foldr_max_le {l : List ℕ} {b : ℕ} (h : ∀ x ∈ l, x ≤ b) :
    l.foldr max 0 ≤ b := by
  induction l with
  | nil => simp
  | cons x xs ih =>
    simp only [List.foldr_cons, max_le_iff]
    exact ⟨h x (List.mem_cons_self x xs), ih (fun y hy => h y (List.mem_cons_of_mem x hy))⟩

theorem le_foldr_max {l : List ℕ} {x : ℕ} (h : x ∈ l) : x ≤ l.foldr max 0 := by
  induction l with
  | nil => simp at h
  | cons y ys ih =>
    simp only [List.foldr_cons]
    rcases List.mem_cons.mp h with rfl | h2
    · exact le_max_left _ _
    · exact le_trans (ih h2) (le_max_right _ _)

theorem mem_distancesOf (advs : List Adversary) (v : ℕ) :
    v ∈ distancesOf advs ↔
      ∃ x ∈ seqOf advs, ∃ y ∈ seqOf advs, y ≠ x ∧ v = max x y - min x y := by
  simp only [distancesOf, List.mem_flatMap, List.mem_map, List.mem_filter,
    decide_eq_true_eq]
  constructor
  · rintro ⟨x, hx, y, ⟨hy, hyx⟩, rfl⟩
    exact ⟨x, hx, y, hy, hyx, rfl⟩
  · rintro ⟨x, hx, y, hy, hyx, rfl⟩
    exact ⟨x, hx, y, ⟨hy, hyx⟩, rfl⟩

theorem mem_seqOf (advs : List Adversary) (v : ℕ) :
    v ∈ seqOf advs ↔
      ∃ i, ∃ _ : i < advs.length, v = (getA advs i).drawn_block_hashes.length := by
  simp only [seqOf, List.mem_map]
  constructor
  · rintro ⟨a, ha, rfl⟩
    obtain ⟨i, hi, rfl⟩ := List.mem_iff_getElem.mp ha
    exact ⟨i, hi, by rw [getA_eq_getElem advs i hi, List.get_eq_getElem]⟩
  · rintro ⟨i, hi, rfl⟩
    exact ⟨getA advs i, getA_mem advs i hi, rfl⟩

theorem calcDistValue_congr {a b : List Adversary} (h : seqOf a = seqOf b) :
    calcDistValue a = calcDistValue b := by
  unfold calcDistValue distancesOf
  rw [h]

theorem seqOf_updateSums (advs : List Adversary) :
    seqOf (updateSums advs) = seqOf advs := by
  unfold seqOf updateSums
  rw [List.map_map]
  rfl

theorem calcDistValue_zero_of_fresh (advs : List Adversary)
    (h : ∀ a ∈ advs, a.drawn_block_hashes = []) : calcDistValue advs = 0 := by
  refine Nat.le_zero.mp (foldr_max_le ?_)
  intro v hv
  obtain ⟨x, hx, y, hy, -, rfl⟩ := (mem_distancesOf advs v).mp hv
  obtain ⟨a, ha, rfl⟩ := List.mem_map.mp hx
  obtain ⟨b, hb, rfl⟩ := List.mem_map.mp hy
  simp [h a ha, h b hb]

theorem calcDistValue_le_succ (advs advs2 : List Adversary)
    (hlen : advs2.length = advs.length)
    (hg : ∀ i, i < advs.length →
      (getA advs2 i).drawn_block_hashes.length =
          (getA advs i).drawn_block_hashes.length ∨
        (getA advs2 i).drawn_block_hashes.length =
          (getA advs i).drawn_block_hashes.length + 1) :
    calcDistValue advs2 ≤ calcDistValue advs + 1 := by
  refine foldr_max_le ?_
  intro v hv
  obtain ⟨x2, hx2, y2, hy2, hne, rfl⟩ := (mem_distancesOf advs2 v).mp hv
  obtain ⟨i, hilt, rfl⟩ := (mem_seqOf advs2 x2).mp hx2
  obtain ⟨j, hjlt, rfl⟩ := (mem_seqOf advs2 y2).mp hy2
  have hi : i < advs.length := hlen ▸ hilt
  have hj : j < advs.length := hlen ▸ hjlt
  set x := (getA advs i).drawn_block_hashes.length with hxdef
  set y := (getA advs j).drawn_block_hashes.length with hydef
  have hgi := hg i hi
  have hgj := hg j hj
  by_cases hxy : x = y
  · omega
  · have hmem : (max x y - min x y) ∈ distancesOf advs := by
      refine (mem_distancesOf advs _).mpr
        ⟨x, (mem_seqOf advs x).mpr ⟨i, hi, rfl⟩,
         y, (mem_seqOf advs y).mpr ⟨j, hj, rfl⟩, ?_, rfl⟩
      exact fun hh => hxy hh.symm
    have hle : max x y - min x y ≤ calcDistValue advs := le_foldr_max hmem
    omega

theorem mine_block_drawn_len (stake : Bool) (cyc : ℕ) (advs : List Adversary)
    (ds : List Draw) (st2 : List Adversary) (rec : CycleRec)
    (h : mine_block stake cyc advs ds = some (st2, rec)) (i : ℕ)
    (hi : i < advs.length) :
    (getA st2 i).drawn_block_hashes.length =
        (getA advs i).drawn_block_hashes.length ∨
      (getA st2 i).drawn_block_hashes.length =
        (getA advs i).drawn_block_hashes.length + 1 := by
  rw [mine_block_drawn stake cyc advs ds st2 rec h i hi]
  split <;> simp


theorem calc_distance_of_lt_one (advs : List Adversary) (rec : SimRecord)
    (ch : ℕ) (h : ch < 1) : calc_distance advs rec ch = .ok rec 0 := by
  simp [calc_distance, h]

theorem calc_distance_fatal_iff (advs : List Adversary) (rec : SimRecord)
    (ch : ℕ) (c : ℕ) :
    calc_distance advs rec ch = .fatal c ↔
      1 ≤ ch ∧ 6 < calcDistValue advs ∧ c = 5 := by
  unfold calc_distance
  split_ifs with h1 h2 h3 h4
  · simp only [reduceCtorEq, false_iff]
    omega
  · obtain ⟨h2a, -⟩ := h2
    simp only [reduceCtorEq, false_iff]
    rintro ⟨-, hgt, -⟩
    omega
  · simp only [reduceCtorEq, false_iff]
    rintro ⟨-, hgt, -⟩
    omega
  · simp only [DistResult.fatal.injEq]
    omega
  · simp only [reduceCtorEq, false_iff]
    rintro ⟨-, hgt, -⟩
    exact h4 hgt

theorem calc_distance_ok_le (advs : List Adversary) (rec rec2 : SimRecord)
    (ch dist : ℕ) (h : calc_distance advs rec ch = .ok rec2 dist) : dist ≤ 6 := by
  unfold calc_distance at h
  split_ifs at h with h1 h2 h3 h4 <;>
    (obtain ⟨-, hd⟩ := DistResult.ok.inj h
     omega)

theorem calc_distance_ok_dist (advs : List Adversary) (rec rec2 : SimRecord)
    (ch dist : ℕ) (h : calc_distance advs rec ch = .ok rec2 dist)
    (hch : 1 ≤ ch) : dist = calcDistValue advs := by
  unfold calc_distance at h
  split_ifs at h with h1 h2 h3 h4 <;>
    first
      | omega
      | (obtain ⟨-, hd⟩ := DistResult.ok.inj h
         omega)

theorem runSim_no_fatal (stake : Bool) (fuel : List (List Draw)) :
    ∀ (advs : List Adversary) (rec : SimRecord) (ch : ℕ),
      (ch = 0 → calcDistValue advs ≤ 5) → calcDistValue advs ≤ 6 →
      ∀ c, run_simulation stake fuel advs rec ch ≠ .fatal c := by
  induction fuel with
  | nil =>
    intro advs rec ch h0 h6 c
    rw [run_simulation]
    cases hd : calc_distance advs rec ch with
    | fatal c2 =>
      have := (calc_distance_fatal_iff advs rec ch c2).mp hd
      omega
    | ok rec2 dist =>
      dsimp only
      split <;> simp
  | cons ds rest ih =>
    intro advs rec ch h0 h6 c
    rw [run_simulation]
    cases hd : calc_distance advs rec ch with
    | fatal c2 =>
      have := (calc_distance_fatal_iff advs rec ch c2).mp hd
      omega
    | ok rec2 dist =>
      by_cases hlt : dist < 6
      · simp only [if_pos hlt]
        cases hm : mine_block stake ch advs ds with
        | none => simp
        | some p =>
          obtain ⟨advs2, r⟩ := p
          have hgrow : calcDistValue (updateSums advs2) ≤ calcDistValue advs + 1 := by
            rw [calcDistValue_congr (seqOf_updateSums advs2)]
            refine calcDistValue_le_succ advs advs2
              (mine_block_length stake ch advs ds advs2 r hm) ?_
            exact fun i hi => mine_block_drawn_len stake ch advs ds advs2 r hm i hi
          have h5 : calcDistValue advs ≤ 5 := by
            by_cases hch : ch = 0
            · exact h0 hch
            · have hge : 1 ≤ ch := Nat.one_le_iff_ne_zero.mpr hch
              have := calc_distance_ok_dist advs rec rec2 ch dist hd hge
              omega
          exact ih (updateSums advs2) rec2 (ch + 1) (by omega) (by omega) c
      · simp only [if_neg hlt]
        simp

theorem runSim_done_dist (stake : Bool) (fuel : List (List Draw)) :
    ∀ (advs : List Adversary) (rec : SimRecord) (ch : ℕ)
      (advs2 : List Adversary) (rec2 : SimRecord) (ch2 dist : ℕ),
      run_simulation stake fuel advs rec ch = .done advs2 rec2 ch2 dist → dist = 6 := by
  induction fuel with
  | nil =>
    intro advs rec ch advs2 rec2 ch2 dist h
    rw [run_simulation] at h
    cases hd : calc_distance advs rec ch with
    | fatal c2 =>
      rw [hd] at h
      simp at h
    | ok rec3 dist3 =>
      rw [hd] at h
      by_cases hlt : dist3 < 6
      · simp [hlt] at h
      · have hle := calc_distance_ok_le advs rec rec3 ch dist3 hd
        simp only [if_neg hlt, RunOutcome.done.injEq] at h
        omega
  | cons ds rest ih =>
    intro advs rec ch advs2 rec2 ch2 dist h
    rw [run_simulation] at h
    cases hd : calc_distance advs rec ch with
    | fatal c2 =>
      rw [hd] at h
      simp at h
    | ok rec3 dist3 =>
      rw [hd] at h
      by_cases hlt : dist3 < 6
      · simp only [if_pos hlt] at h
        cases hm : mine_block stake ch advs ds with
        | none => rw [hm] at h; simp at h
        | some p =>
          obtain ⟨advs3, r⟩ := p
          rw [hm] at h
          exact ih _ _ _ _ _ _ _ h
      · have hle := calc_distance_ok_le advs rec rec3 ch dist3 hd
        simp only [if_neg hlt, RunOutcome.done.injEq] at h
        omega

theorem runSim_done_of_six (stake : Bool) (fuel : List (List Draw))
    (advs : List Adversary) (rec rec2 : SimRecord) (ch : ℕ)
    (h : calc_distance advs rec ch = .ok rec2 6) :
    run_simulation stake fuel advs rec ch = .done advs rec2 ch 6 := by
  rw [run_simulation, h]
  dsimp only
  simp

/-! ## Rewind lemmas -/

theorem getA_cons_zero (a : Adversary) (as : List Adversary) :
    getA (a :: as) 0 = a := rfl

theorem getA_cons_succ (a : Adversary) (as : List Adversary) (n : ℕ) :
    getA (a :: as) (n + 1) = getA as n := rfl

theorem modifyIdx_length (f : Adversary → Adversary) (n : ℕ)
    (l : List Adversary) : (modifyIdx f n l).length = l.length := by
  induction l generalizing n with
  | nil => cases n <;> rfl
  | cons a as ih =>
    cases n with
    | zero => rfl
    | succ n => simpa [modifyIdx] using ih n

theorem getA_modifyIdx_self (f : Adversary → Adversary) (n : ℕ)
    (l : List Adversary) (h : n < l.length) :
    getA (modifyIdx f n l) n = f (getA l n) := by
  induction l generalizing n with
  | nil => simp at h
  | cons a as ih =>
    cases n with
    | zero => rfl
    | succ n =>
      rw [modifyIdx, getA_cons_succ, getA_cons_succ]
      exact ih n (by simpa using h)

theorem getA_modifyIdx_ne (f : Adversary → Adversary) (n : ℕ)
    (l : List Adversary) (i : ℕ) (h : i ≠ n) :
    getA (modifyIdx f n l) i = getA l i := by
  induction l generalizing n i with
  | nil => cases n <;> rfl
  | cons a as ih =>
    cases n with
    | zero =>
      cases i with
      | zero => exact absurd rfl h
      | succ i => rfl
    | succ n =>
      cases i with
      | zero => rfl
      | succ i =>
        rw [modifyIdx, getA_cons_succ, getA_cons_succ]
        exact ih n i (fun hh => h (by rw [hh]))

theorem setup_block_rewind_zero (stake : Bool) (advs : List Adversary)
    (radv : ℕ) : setup_block_rewind stake advs radv 0 = advs := rfl

theorem setup_block_rewind_succ (stake : Bool) (advs : List Adversary)
    (radv r : ℕ) :
    setup_block_rewind stake advs radv (r + 1) =
      modifyIdx
        (fun a =>
          { a with
            drawn_block_hashes := a.drawn_block_hashes ++ ["RWB" ++ Nat.repr r],
            chain := a.chain ++
              [if stake then Block.rewindPosB ("RWB" ++ Nat.repr r)
               else Block.rewindPowB ("RWB" ++ Nat.repr r)] })
        radv (setup_block_rewind stake advs radv r) := by
  unfold setup_block_rewind
  rw [List.range_succ, List.foldl_append]
  rfl

theorem setup_block_rewind_length (stake : Bool) (advs : List Adversary)
    (radv r : ℕ) :
    (setup_block_rewind stake advs radv r).length = advs.length := by
  induction r with
  | zero => rfl
  | succ r ih => rw [setup_block_rewind_succ, modifyIdx_length, ih]

theorem setup_block_rewind_drawn_self (stake : Bool) (advs : List Adversary)
    (radv r : ℕ) (h : radv < advs.length) :
    (getA (setup_block_rewind stake advs radv r) radv).drawn_block_hashes.length =
      (getA advs radv).drawn_block_hashes.length + r := by
  induction r with
  | zero => rfl
  | succ r ih =>
    rw [setup_block_rewind_succ,
      getA_modifyIdx_self _ _ _ (by rw [setup_block_rewind_length]; exact h)]
    simp only [List.length_append, List.length_cons, List.length_nil]
    omega

theorem setup_block_rewind_drawn_ne (stake : Bool) (advs : List Adversary)
    (radv r i : ℕ) (h : i ≠ radv) :
    (getA (setup_block_rewind stake advs radv r) i).drawn_block_hashes =
      (getA advs i).drawn_block_hashes := by
  induction r with
  | zero => rfl
  | succ r ih =>
    rw [setup_block_rewind_succ, getA_modifyIdx_ne _ _ _ _ h, ih]

theorem calcDistValue_setup (stake : Bool) (advs : List Adversary)
    (radv r : ℕ) (h2 : 2 ≤ advs.length) (hradv : radv < advs.length)
    (hr : 1 ≤ r) (hfresh : ∀ a ∈ advs, a.drawn_block_hashes = []) :
    calcDistValue (setup_block_rewind stake advs radv r) = r := by
  have hlen := setup_block_rewind_length stake advs radv r
  have hval : ∀ i, i < advs.length →
      (getA (setup_block_rewind stake advs radv r) i).drawn_block_hashes.length =
        if i = radv then r else 0 := by
    intro i hi
    by_cases hir : i = radv
    · subst hir
      rw [if_pos rfl, setup_block_rewind_drawn_self stake advs i r hi,
        hfresh _ (getA_mem advs i hi)]
      simp
    · rw [if_neg hir, setup_block_rewind_drawn_ne stake advs radv r i hir,
        hfresh _ (getA_mem advs i hi)]
      rfl
  refine Nat.le_antisymm (foldr_max_le ?_) (le_foldr_max ?_)
  · intro v hv
    obtain ⟨x, hx, y, hy, -, rfl⟩ :=
      (mem_distancesOf (setup_block_rewind stake advs radv r) v).mp hv
    obtain ⟨i, hi, rfl⟩ := (mem_seqOf _ x).mp hx
    obtain ⟨j, hj, rfl⟩ := (mem_seqOf _ y).mp hy
    have hxv := hval i (hlen ▸ hi)
    have hyv := hval j (hlen ▸ hj)
    split_ifs at hxv hyv <;> omega
  · have hother : ∃ j, j < advs.length ∧ j ≠ radv := by
      by_cases h0 : radv = 0
      · exact ⟨1, by omega, by omega⟩
      · exact ⟨0, by omega, fun hh => h0 hh.symm⟩
    obtain ⟨j, hj, hjr⟩ := hother
    refine (mem_distancesOf _ r).mpr
      ⟨r, (mem_seqOf _ r).mpr ⟨radv, hlen ▸ hradv, by rw [hval radv hradv, if_pos rfl]⟩,
       0, (mem_seqOf _ 0).mpr ⟨j, hlen ▸ hj, by rw [hval j hj, if_neg hjr]⟩,
       by omega, by omega⟩

/-! ## Claim theorems: distance tracking and run termination -/

/-- A fresh 50/50 test adversary owning block hash 0 and no tickets. -/
def testAdvA : Adversary :=
  { hashpower := 50, stakesize := 50, prob_block_hashes := {0},
    prob_tickets := ∅, drawn_block_hashes := [], drawn_tickets := [],
    chain := [], sum_blocks := 0, validated_blocks := 0,
    invalidated_blocks := 0 }

/-- A fresh 50/50 test adversary owning block hash 1 and tickets 1-3. -/
def testAdvB : Adversary :=
  { hashpower := 50, stakesize := 50, prob_block_hashes := {1},
    prob_tickets := {1, 2, 3}, drawn_block_hashes := [], drawn_tickets := [],
    chain := [], sum_blocks := 0, validated_blocks := 0,
    invalidated_blocks := 0 }

/-- Claim C7: a run's loop gives back control exactly when the observed
distance is 6 (a `done` outcome always carries distance 6, and an
observation of 6 stops the loop at once); `calc_distance` aborts with
exit code 5 exactly when it observes a distance above 6 after the first
cycle; and from a fresh start (every `drawn_block_hashes` empty, cycle
height 0) the fatal branch is unreachable for every oracle, because
chains grow by at most one block per accepted round. -/
theorem run_terminates_at_six :
    (∀ (stake : Bool) (fuel : List (List Draw)) (advs : List Adversary)
      (rec : SimRecord) (ch : ℕ) (advs2 : List Adversary) (rec2 : SimRecord)
      (ch2 dist : ℕ),
      run_simulation stake fuel advs rec ch = .done advs2 rec2 ch2 dist → dist = 6) ∧
    (∀ (stake : Bool) (fuel : List (List Draw)) (advs : List Adversary)
      (rec rec2 : SimRecord) (ch : ℕ),
      calc_distance advs rec ch = .ok rec2 6 →
        run_simulation stake fuel advs rec ch = .done advs rec2 ch 6) ∧
    (∀ (advs : List Adversary) (rec : SimRecord) (ch c : ℕ),
      calc_distance advs rec ch = .fatal c ↔
        1 ≤ ch ∧ 6 < calcDistValue advs ∧ c = 5) ∧
    (∀ (stake : Bool) (fuel : List (List Draw)) (advs : List Adversary)
      (rec : SimRecord),
      (∀ a ∈ advs, a.drawn_block_hashes = []) →
        ∀ c, run_simulation stake fuel advs rec 0 ≠ .fatal c) := by
  refine ⟨?_, ?_, ?_, ?_⟩
  · intro stake fuel advs rec ch advs2 rec2 ch2 dist h
    exact runSim_done_dist stake fuel advs rec ch advs2 rec2 ch2 dist h
  · intro stake fuel advs rec rec2 ch h
    exact runSim_done_of_six stake fuel advs rec rec2 ch h
  · intro advs rec ch c
    exact calc_distance_fatal_iff advs rec ch c
  · intro stake fuel advs rec hfresh c
    have h0 := calcDistValue_zero_of_fresh advs hfresh
    exact runSim_no_fatal stake fuel advs rec 0 (fun _ => by omega) (by omega) c

/-- Witness for `run_terminates_at_six`: a fresh two-adversary run is
never fatal, an observation of distance 7 is the exit-5 abort, and an
observed distance 6 ends the run at once. -/
theorem run_terminates_at_six_witness :
    run_simulation false [] [testAdvA, testAdvB] initSimRecord 0 ≠ .fatal 5 ∧
    calc_distance (setup_block_rewind false [testAdvA, testAdvB] 0 7)
      initSimRecord 7 = .fatal 5 ∧
    run_simulation false [] (setup_block_rewind false [testAdvA, testAdvB] 0 6)
      initSimRecord 6 =
      .done (setup_block_rewind false [testAdvA, testAdvB] 0 6)
        { initSimRecord with diff6 := 7, winner6 := some "A0",
                             score6 := some "0" } 6 6 := by
  refine ⟨run_terminates_at_six.2.2.2 false [] [testAdvA, testAdvB]
      initSimRecord (by decide) 5, ?_, ?_⟩
  · exact (run_terminates_at_six.2.2.1
      (setup_block_rewind false [testAdvA, testAdvB] 0 7) initSimRecord 7 5).mpr
      (by refine ⟨by omega, ?_, rfl⟩; decide)
  · exact run_terminates_at_six.2.1 false []
      (setup_block_rewind false [testAdvA, testAdvB] 0 6) initSimRecord
      { initSimRecord with diff6 := 7, winner6 := some "A0",
                           score6 := some "0" } 6 (by decide)

/-- Claim C10: with `rewindBlocks = r ≥ 7` and a valid rewind adversary
index, the rewound run's very first distance observation is `r > 6`, so
`run_simulation` aborts the batch with the fatal exit code 5 before any round
is mined — for every mining oracle — although such a configuration
passes every check of `sanity_check` (which never inspects
`rewind_blocks`). -/
theorem rewind_seven_aborts (stake : Bool) (advs : List Adversary)
    (radv r : ℕ) (rec : SimRecord) (fuel : List (List Draw)) (hp st : List ℚ)
    (h2 : 2 ≤ advs.length) (hradv : radv < advs.length) (hr : 7 ≤ r)
    (hfresh : ∀ a ∈ advs, a.drawn_block_hashes = [])
    (hhp2 : 2 ≤ hp.length) (hhps : (hp.map pyRound2).sum = 100)
    (hst : st = [] ∨ ((st.map pyRound2).sum = 100 ∧ st.length = hp.length))
    (hradv2 : radv < hp.length) :
    calcDistValue (setup_block_rewind stake advs radv r) = r ∧
    run_simulation stake fuel (setup_block_rewind stake advs radv r) rec r =
      .fatal 5 ∧
    sanity_check hp st radv = .ok := by
  have hdist := calcDistValue_setup stake advs radv r h2 hradv (by omega) hfresh
  refine ⟨hdist, ?_, ?_⟩
  · rw [run_simulation,
      (calc_distance_fatal_iff (setup_block_rewind stake advs radv r) rec r 5).mpr
        ⟨by omega, by omega, rfl⟩]
  · unfold sanity_check
    rcases hst with rfl | ⟨hsum, hlen⟩
    · rw [if_neg (by omega), if_neg (by simp [hhps]), if_neg (by simp),
        if_neg (by simp), if_neg (by omega)]
    · rw [if_neg (by omega), if_neg (by simp [hhps]), if_neg (by simp [hsum]),
        if_neg (by simp [hlen]), if_neg (by omega)]

/-- Witness for `rewind_seven_aborts`: rewinding adversary `A0` by 7
blocks in a fresh two-adversary 50/50 run aborts immediately, while
`sanity_check [50, 50] [] 0` passes. -/
theorem rewind_seven_aborts_witness :
    calcDistValue (setup_block_rewind false [testAdvA, testAdvB] 0 7) = 7 ∧
    run_simulation false [] (setup_block_rewind false [testAdvA, testAdvB] 0 7)
      initSimRecord 7 = .fatal 5 ∧
    sanity_check [50, 50] [] 0 = .ok := by
  have h50 : pyRound2 50 = 50 := by
    have h := pyRound2_natCast 5000
    norm_num at h
    exact h
  exact rewind_seven_aborts false [testAdvA, testAdvB] 0 7 initSimRecord []
    [50, 50] [] (by decide) (by decide) (by decide) (by decide) (by decide)
    (by simp [h50]; norm_num) (Or.inl rfl) (by decide)

/-- An adversary with `n` won draws and `sum_blocks = n`, as every
adversary looks after `run_simulation` refreshed the counters. -/
def chainAdv (n : ℕ) : Adversary :=
  { hashpower := 0, stakesize := 0, prob_block_hashes := ∅,
    prob_tickets := ∅, drawn_block_hashes := List.replicate n "x",
    drawn_tickets := [], chain := [], sum_blocks := n,
    validated_blocks := 0, invalidated_blocks := 0 }

/-- Claim C2 (failing evaluation): at the cycle where the distance
first reaches 2 with chain heights 11 and 9, `calc_distance` records
`A1` as 2-block leader — `max(winner_list, key=winner_list.get)`
compares the decimal strings and `"9" > "11"` — although `A0` has the
strictly higher `totalBlocksMined`.  The recorded milestone winner is
therefore not the adversary with the highest `sum_blocks`. -/
theorem calc_distance_string_max_eval :
    calc_distance [chainAdv 11, chainAdv 9] initSimRecord 11 =
      .ok ({ initSimRecord with diff2 := 12, winner2 := some "A1",
                                score2 := some "9" }) 2 ∧
    (getA [chainAdv 11, chainAdv 9] 1).sum_blocks <
      (getA [chainAdv 11, chainAdv 9] 0).sum_blocks := by
  decide

/-! ## Claim theorems: mining round frame properties -/

/-- Claim C6 counterexample: a stake-mode attempt that is discarded
because no PoW winner reached the committee majority does not leave
every adversary's counters unchanged — `A0` wins the hash draw, owns no
committee ticket, and its `invalidated_blocks` counter changes from 0
to 1 in the retried state. -/
theorem discarded_attempt_mutates_counter :
    (attempt true 0 [testAdvA, testAdvB] ⟨0, 3, [1, 2, 3]⟩).2.2 = false ∧
    (getA (attempt true 0 [testAdvA, testAdvB] ⟨0, 3, [1, 2, 3]⟩).1 0).invalidated_blocks ≠
      (getA [testAdvA, testAdvB] 0).invalidated_blocks := by
  decide

/-- Claim C6 (amended): an attempt with no PoW winner mutates no
adversary state and is retried; a discarded stake-mode attempt leaves
every chain and every `drawn_block_hashes` log unchanged (though not
the `invalidated_blocks` counters of its unconfirmed winners); and when
`mine_block` returns, exactly the accepted winners' chains — the
PoS-confirmed winners in stake mode, all PoW winners in pure PoW
mode — have grown by exactly one block, every other chain being
unchanged. -/
theorem mine_block_frame :
    (∀ (stake : Bool) (cyc : ℕ) (advs : List Adversary) (d : Draw),
      anyWinnerB advs d = false →
        (attempt stake cyc advs d).1 = advs ∧
        (attempt stake cyc advs d).2.2 = false) ∧
    (∀ (cyc : ℕ) (advs : List Adversary) (d : Draw) (i : ℕ),
      i < advs.length → (attempt true cyc advs d).2.2 = false →
        (getA (attempt true cyc advs d).1 i).chain = (getA advs i).chain ∧
        (getA (attempt true cyc advs d).1 i).drawn_block_hashes =
          (getA advs i).drawn_block_hashes) ∧
    (∀ (stake : Bool) (cyc : ℕ) (advs : List Adversary) (ds : List Draw)
      (st2 : List Adversary) (rec : CycleRec),
      mine_block stake cyc advs ds = some (st2, rec) →
        st2.length = advs.length ∧
        ∀ i, i < advs.length →
          (i ∈ accWinners stake rec →
            (getA st2 i).chain.length = (getA advs i).chain.length + 1) ∧
          (i ∉ accWinners stake rec →
            (getA st2 i).chain = (getA advs i).chain)) := by
  refine ⟨?_, ?_, ?_⟩
  · intro stake cyc advs d haw
    refine ⟨attempt_no_winner stake cyc advs d haw, ?_⟩
    simp [attempt, haw]
  · intro cyc advs d i hi hacc
    have hnil := attempt_acc_false_accWinners_nil true cyc advs d hacc
    have hm : i ∉ accWinners true (attempt true cyc advs d).2.1 := by
      rw [hnil]; simp
    refine ⟨attempt_chain_of_not_mem true cyc advs d i hi hm, ?_⟩
    rw [attempt_drawn true cyc advs d i hi, if_neg hm]
    simp
  · intro stake cyc advs ds st2 rec h
    exact ⟨mine_block_length stake cyc advs ds st2 rec h,
      fun i hi => mine_block_chain stake cyc advs ds st2 rec h i hi⟩

/-- Witness for `mine_block_frame`: a no-winner attempt leaves the
state untouched; the discarded stake attempt of the counterexample
leaves `A0`'s chain and drawn log unchanged; a one-draw pure-PoW
`mine_block` call grows exactly the winner `A0`'s chain by one block. -/
theorem mine_block_frame_witness :
    (attempt false 0 [testAdvA, testAdvB] ⟨5, 3, []⟩).1 = [testAdvA, testAdvB] ∧
    (getA (attempt true 0 [testAdvA, testAdvB] ⟨0, 3, [1, 2, 3]⟩).1 0).chain =
      (getA [testAdvA, testAdvB] 0).chain ∧
    (attempt false 0 [testAdvA, testAdvB] ⟨0, 3, []⟩).1.length = 2 ∧
    (getA (attempt false 0 [testAdvA, testAdvB] ⟨0, 3, []⟩).1 0).chain.length =
      (getA [testAdvA, testAdvB] 0).chain.length + 1 ∧
    (getA (attempt false 0 [testAdvA, testAdvB] ⟨0, 3, []⟩).1 1).chain =
      (getA [testAdvA, testAdvB] 1).chain := by
  have hm : mine_block false 0 [testAdvA, testAdvB] [⟨0, 3, []⟩] =
      some ((attempt false 0 [testAdvA, testAdvB] ⟨0, 3, []⟩).1,
            (attempt false 0 [testAdvA, testAdvB] ⟨0, 3, []⟩).2.1) := by
    decide
  have h3 := mine_block_frame.2.2 false 0 [testAdvA, testAdvB] [⟨0, 3, []⟩] _ _ hm
  refine ⟨(mine_block_frame.1 false 0 [testAdvA, testAdvB] ⟨5, 3, []⟩ (by decide)).1,
    (mine_block_frame.2.1 0 [testAdvA, testAdvB] ⟨0, 3, [1, 2, 3]⟩ 0 (by decide)
      (by decide)).1,
    h3.1, (h3.2 0 (by decide)).1 (by decide), (h3.2 1 (by decide)).2 (by decide)⟩

/-- Claim C9: in a discarded stake-mode attempt each unconfirmed PoW
winner keeps its `invalidated_blocks` increment — the increment is
never rolled back — while its `drawn_block_hashes` log is restored and
its chain untouched; and across a whole `mine_block` call the final
`invalidated_blocks` equals the initial value plus one per processed
attempt in which the adversary was an unconfirmed PoW winner, discarded
attempts included. -/
theorem invalidated_counters_persist :
    (∀ (cyc : ℕ) (advs : List Adversary) (d : Draw) (i : ℕ),
      i < advs.length → (attempt true cyc advs d).2.2 = false →
      i ∈ (attempt true cyc advs d).2.1.pow_winners →
        (getA (attempt true cyc advs d).1 i).invalidated_blocks =
          (getA advs i).invalidated_blocks + 1 ∧
        (getA (attempt true cyc advs d).1 i).drawn_block_hashes =
          (getA advs i).drawn_block_hashes ∧
        (getA (attempt true cyc advs d).1 i).chain = (getA advs i).chain) ∧
    (∀ (cyc : ℕ) (advs : List Adversary) (ds : List Draw)
      (st2 : List Adversary) (rec : CycleRec) (i : ℕ),
      mine_block true cyc advs ds = some (st2, rec) → i < advs.length →
        (getA st2 i).invalidated_blocks =
          (getA advs i).invalidated_blocks + invCount true cyc advs ds i) := by
  constructor
  · intro cyc advs d i hi hacc hpw
    have hnil := attempt_acc_false_accWinners_nil true cyc advs d hacc
    have hm : i ∉ accWinners true (attempt true cyc advs d).2.1 := by
      rw [hnil]; simp
    have hpos : i ∉ (attempt true cyc advs d).2.1.pos_winners := hm
    have hflag : invFlag true (attempt true cyc advs d).2.1 i = 1 := by
      simp [invFlag, hpw, hpos]
    refine ⟨?_, ?_, attempt_chain_of_not_mem true cyc advs d i hi hm⟩
    · rw [attempt_inv true cyc advs d i hi, hflag]
    · rw [attempt_drawn true cyc advs d i hi, if_neg hm]
      simp
  · intro cyc advs ds st2 rec i h hi
    exact mine_block_inv true cyc advs ds st2 rec h i hi

/-- Witness for `invalidated_counters_persist`: in the discarded
attempt of the counterexample `A0` gets exactly one increment with its
logs restored, and over the two-draw call (one discarded attempt, one
accepted) the final counter equals `invCount`, which is 1. -/
theorem invalidated_counters_persist_witness :
    (getA (attempt true 0 [testAdvA, testAdvB] ⟨0, 3, [1, 2, 3]⟩).1 0).invalidated_blocks =
      (getA [testAdvA, testAdvB] 0).invalidated_blocks + 1 ∧
    (getA (attempt true 0 [testAdvA, testAdvB] ⟨0, 3, [1, 2, 3]⟩).1 0).drawn_block_hashes =
      (getA [testAdvA, testAdvB] 0).drawn_block_hashes ∧
    (getA ((mine_block true 0 [testAdvA, testAdvB]
        [⟨0, 3, [1, 2, 3]⟩, ⟨1, 3, [1, 2, 3]⟩]).getD ([], ⟨0, [], []⟩)).1 0).invalidated_blocks =
      (getA [testAdvA, testAdvB] 0).invalidated_blocks +
        invCount true 0 [testAdvA, testAdvB]
          [⟨0, 3, [1, 2, 3]⟩, ⟨1, 3, [1, 2, 3]⟩] 0 ∧
    invCount true 0 [testAdvA, testAdvB]
      [⟨0, 3, [1, 2, 3]⟩, ⟨1, 3, [1, 2, 3]⟩] 0 = 1 := by
  have h1 := invalidated_counters_persist.1 0 [testAdvA, testAdvB]
    ⟨0, 3, [1, 2, 3]⟩ 0 (by decide) (by decide) (by decide)
  have hm : mine_block true 0 [testAdvA, testAdvB]
      [⟨0, 3, [1, 2, 3]⟩, ⟨1, 3, [1, 2, 3]⟩] =
      some (((mine_block true 0 [testAdvA, testAdvB]
        [⟨0, 3, [1, 2, 3]⟩, ⟨1, 3, [1, 2, 3]⟩]).getD ([], ⟨0, [], []⟩)).1,
        ((mine_block true 0 [testAdvA, testAdvB]
        [⟨0, 3, [1, 2, 3]⟩, ⟨1, 3, [1, 2, 3]⟩]).getD ([], ⟨0, [], []⟩)).2) := by
    decide
  exact ⟨h1.1, h1.2.1,
    invalidated_counters_persist.2 0 [testAdvA, testAdvB] _ _ _ 0 hm (by decide),
    by decide⟩

/-! ## Claim theorems: stake-mode committee draws -/

/-- Claim C3 counterexample: not every ticket id from `0` to `T-1` is
drawable for the committee.  The committee sample population is
`range(1, pos_avg_ticket_pool_size)`, so ticket id 0 — which the
endowment pool `range(pos_avg_ticket_pool_size)` does assign to an
adversary — can never be drawn. -/
theorem committee_excludes_ticket_zero :
    ¬ (∀ t, t < pos_avg_ticket_pool_size →
        t ∈ committeeSupport pos_avg_ticket_pool_size) := by
  intro h
  have h0 := h 0 (by norm_num [pos_avg_ticket_pool_size])
  simp [committeeSupport] at h0

/-- Claim C3 (amended): the committee size weights are exactly the
historical proportions of 5/4/3-vote blocks (counts normalized by their
total, summing to 1); the drawable committee ticket ids are exactly
`1 .. T-1` (id 0 excluded); and in a stake-mode attempt a PoW winner is
confirmed — appended to `pos_winners` — if and only if the number of
drawn committee tickets it owns strictly exceeds `k // 2`. -/
theorem stake_committee_spec :
    (pos_prop_blocks_5votes = 401716 / 429894 ∧
     pos_prop_blocks_4votes = 22561 / 429894 ∧
     pos_prop_blocks_3votes = 5617 / 429894 ∧
     pos_prop_blocks_5votes + pos_prop_blocks_4votes +
       pos_prop_blocks_3votes = 1) ∧
    (∀ T t, t ∈ committeeSupport T ↔ 1 ≤ t ∧ t < T) ∧
    (∀ (cyc : ℕ) (advs : List Adversary) (d : Draw) (i : ℕ),
      i < advs.length →
      (i ∈ (attempt true cyc advs d).2.1.pos_winners ↔
        i ∈ (attempt true cyc advs d).2.1.pow_winners ∧
          ownedCommitteeCount (getA advs i) d > d.committeeSize / 2)) := by
  refine ⟨⟨?_, ?_, ?_, ?_⟩, ?_, ?_⟩
  · norm_num [pos_prop_blocks_5votes, pos_blocks_with_5votes,
      pos_blocks_with_votes, pos_blocks_with_4votes, pos_blocks_with_3votes]
  · norm_num [pos_prop_blocks_4votes, pos_blocks_with_5votes,
      pos_blocks_with_votes, pos_blocks_with_4votes, pos_blocks_with_3votes]
  · norm_num [pos_prop_blocks_3votes, pos_blocks_with_5votes,
      pos_blocks_with_votes, pos_blocks_with_4votes, pos_blocks_with_3votes]
  · norm_num [pos_prop_blocks_5votes, pos_prop_blocks_4votes,
      pos_prop_blocks_3votes, pos_blocks_with_5votes,
      pos_blocks_with_votes, pos_blocks_with_4votes, pos_blocks_with_3votes]
  · intro T t
    simp [committeeSupport, Finset.mem_Ico]
  · intro cyc advs d i hi
    by_cases haw : anyWinnerB advs d = true
    · simp only [attempt, haw, Bool.and_true, Bool.and_self, if_pos]
      simp [mem_confirmedIdx]
    · rw [Bool.not_eq_true] at haw
      constructor
      · intro hm
        simp [attempt, haw] at hm
      · rintro ⟨hm, -⟩
        have := (mem_powWinnersIdx advs d i).mp hm
        exact absurd (anyWinnerB_of_winner advs d i hi this.2) (by simp [haw])

/-- Witness for `stake_committee_spec`: the confirmation rule
instantiated at the discarded-attempt example (where `A0` is a PoW
winner but owns 0 of the 3 committee tickets). -/
theorem stake_committee_spec_witness :
    (0 ∈ (attempt true 0 [testAdvA, testAdvB] ⟨0, 3, [1, 2, 3]⟩).2.1.pos_winners ↔
      0 ∈ (attempt true 0 [testAdvA, testAdvB] ⟨0, 3, [1, 2, 3]⟩).2.1.pow_winners ∧
        ownedCommitteeCount (getA [testAdvA, testAdvB] 0) ⟨0, 3, [1, 2, 3]⟩ >
          (3 : ℕ) / 2) ∧
    (0 ∈ committeeSupport 40960 ↔ 1 ≤ 0 ∧ 0 < 40960) :=
  ⟨stake_committee_spec.2.2 0 [testAdvA, testAdvB] ⟨0, 3, [1, 2, 3]⟩ 0 (by decide),
   stake_committee_spec.2.1 40960 0⟩

/-! ## Claim theorems: endowment assignment -/

theorem assignTickets_preserves (T : ℕ) :
    ∀ (base : List Adversary) (st : List (ℚ × Finset ℕ)) (pool : Finset ℕ)
      (advs : List Adversary), assignTickets T base st pool = some advs →
      advs.length = base.length ∧
      ∀ i, i < base.length →
        (getA advs i).prob_block_hashes = (getA base i).prob_block_hashes := by
  intro base
  induction base with
  | nil =>
    intro st pool advs h
    cases st with
    | nil =>
      simp only [assignTickets, Option.some.injEq] at h
      subst h
      exact ⟨rfl, by intro i hi; simp at hi⟩
    | cons p rest => simp [assignTickets] at h
  | cons adv advs0 ih =>
    intro st pool advs h
    cases st with
    | nil => simp [assignTickets] at h
    | cons p rest =>
      obtain ⟨s, smp⟩ := p
      rw [assignTickets] at h
      split_ifs at h with hc
      · obtain ⟨tail, htail, rfl⟩ := Option.map_eq_some'.mp h
        obtain ⟨hlen, hpt⟩ := ih rest (pool \ smp) tail htail
        refine ⟨by simpa using hlen, ?_⟩
        intro i hi
        cases i with
        | zero => rfl
        | succ i =>
          rw [getA_cons_succ, getA_cons_succ]
          exact hpt i (by simpa using hi)

theorem assignTickets_disjoint (T : ℕ) :
    ∀ (base : List Adversary) (st : List (ℚ × Finset ℕ)) (pool : Finset ℕ)
      (advs : List Adversary), assignTickets T base st pool = some advs →
      (∀ a ∈ advs, a.prob_tickets ⊆ pool) ∧
      List.Pairwise (fun a b => Disjoint a.prob_tickets b.prob_tickets) advs ∧
      (advs.map (fun a => a.prob_tickets.card)).sum ≤ pool.card := by
  intro base
  induction base with
  | nil =>
    intro st pool advs h
    cases st with
    | nil =>
      simp only [assignTickets, Option.some.injEq] at h
      subst h
      simp
    | cons p rest => simp [assignTickets] at h
  | cons adv advs0 ih =>
    intro st pool advs h
    cases st with
    | nil => simp [assignTickets] at h
    | cons p rest =>
      obtain ⟨s, smp⟩ := p
      rw [assignTickets] at h
      split_ifs at h with hc
      · obtain ⟨tail, htail, rfl⟩ := Option.map_eq_some'.mp h
        obtain ⟨hsub, hdisj, hsum⟩ := ih rest (pool \ smp) tail htail
        obtain ⟨hsmp, hcard⟩ := hc
        have hhead : ∀ a ∈ tail, Disjoint smp a.prob_tickets := by
          intro a ha
          have h1 : a.prob_tickets ⊆ pool \ smp := hsub a ha
          exact Finset.disjoint_left.mpr
            (fun x hx hxa => (Finset.mem_sdiff.mp (h1 hxa)).2 hx)
        refine ⟨?_, ?_, ?_⟩
        · intro a ha
          rcases List.mem_cons.mp ha with rfl | ha2
          · exact hsmp
          · exact (hsub a ha2).trans (Finset.sdiff_subset)
        · exact List.pairwise_cons.mpr ⟨hhead, hdisj⟩
        · have hpool : smp.card + (pool \ smp).card = pool.card := by
            rw [Nat.add_comm]
            exact Finset.card_sdiff_add_card_eq_card hsmp
          simp only [List.map_cons, List.sum_cons]
          omega

theorem calc_hashpower_some (stake : Bool) (H T : ℕ)
    (hp st : List (ℚ × Finset ℕ)) (advs : List Adversary)
    (h : calc_hashpower stake H T hp st = some advs) :
    advs.length = hp.length ∧
    (∀ i, i < advs.length →
      (getA advs i).prob_block_hashes.card =
        hashSampleSize (hp.getD i (0, ∅)).1) ∧
    (stake = true → assignTickets T (hp.map (fun p => mkBaseAdv p.1 p.2)) st
      (Finset.range T) = some advs) := by
  unfold calc_hashpower at h
  split_ifs at h with hall hstake
  · -- stake mode: the ticket loop ran
    have hcard : ∀ p ∈ hp, p.2.card = hashSampleSize p.1 := by
      intro p hmem
      have := List.all_eq_true.mp hall p hmem
      simp only [Bool.and_eq_true, decide_eq_true_eq] at this
      exact this.2
    have hbase : ∀ i, i < hp.length →
        getA (hp.map (fun p => mkBaseAdv p.1 p.2)) i =
          mkBaseAdv (hp.getD i (0, ∅)).1 (hp.getD i (0, ∅)).2 := by
      intro i hi
      rw [getA, List.getD_eq_getElem?_getD, List.getElem?_map,
        List.getElem?_eq_getElem hi]
      simp [List.getD_eq_getElem?_getD, List.getElem?_eq_getElem hi]
    obtain ⟨hlen, hpt⟩ := assignTickets_preserves T _ st (Finset.range T) advs h
    rw [List.length_map] at hlen
    refine ⟨hlen, ?_, fun _ => h⟩
    intro i hi
    rw [hlen] at hi
    rw [hpt i (by rw [List.length_map]; exact hi), hbase i hi]
    have hm : hp.getD i (0, ∅) ∈ hp := by
      rw [List.getD_eq_getElem?_getD, List.getElem?_eq_getElem hi]
      exact List.getElem_mem hi
    exact hcard _ hm
  · -- pure PoW: the base list is returned as is
    have hcard : ∀ p ∈ hp, p.2.card = hashSampleSize p.1 := by
      intro p hmem
      have := List.all_eq_true.mp hall p hmem
      simp only [Bool.and_eq_true, decide_eq_true_eq] at this
      exact this.2
    have hbase : ∀ i, i < hp.length →
        getA (hp.map (fun p => mkBaseAdv p.1 p.2)) i =
          mkBaseAdv (hp.getD i (0, ∅)).1 (hp.getD i (0, ∅)).2 := by
      intro i hi
      rw [getA, List.getD_eq_getElem?_getD, List.getElem?_map,
        List.getElem?_eq_getElem hi]
      simp [List.getD_eq_getElem?_getD, List.getElem?_eq_getElem hi]
    simp only [Option.some.injEq] at h
    subst h
    refine ⟨by simp, ?_, fun hs => absurd hs hstake⟩
    intro i hi
    rw [List.length_map] at hi
    rw [hbase i hi]
    have hm : hp.getD i (0, ∅) ∈ hp := by
      rw [List.getD_eq_getElem?_getD, List.getElem?_eq_getElem hi]
      exact List.getElem_mem hi
    exact hcard _ hm

theorem hashSampleSize_fifty : hashSampleSize 50 = 5000 := by
  have h := hashSampleSize_natCast 5000
  norm_num at h
  exact h

theorem hashSampleSize_zero : hashSampleSize 0 = 0 := by
  have h := hashSampleSize_natCast 0
  norm_num at h
  exact h

theorem pyRound2_hundred : pyRound2 100 = 100 := by
  have h := pyRound2_natCast 10000
  norm_num at h
  exact h

theorem pyRound2_zero : pyRound2 0 = 0 := by
  have h := pyRound2_natCast 0
  norm_num at h
  exact h

theorem ticketSampleSize_hundred (T : ℕ) : ticketSampleSize 100 T = T := by
  rw [ticketSampleSize, pyRound2_hundred]
  have h : (100 : ℚ) / 100 * T = (T : ℚ) := by norm_num
  rw [h, pyRound_natCast, Int.toNat_natCast]

theorem ticketSampleSize_zero (T : ℕ) : ticketSampleSize 0 T = 0 := by
  rw [ticketSampleSize, pyRound2_zero]
  have h : (0 : ℚ) / 100 * T = ((0 : ℕ) : ℚ) := by norm_num
  rw [h, pyRound_natCast, Int.toNat_natCast]

theorem specHashSampleSize_default (n : ℕ) :
    specHashSampleSize ((n : ℚ) / 100) 10000 = n := by
  rw [specHashSampleSize]
  have h : (n : ℚ) / 100 * (10000 : ℕ) / 10000 * 100 = (n : ℚ) := by
    push_cast
    field_simp
    ring
  rw [h, pyRound_natCast, Int.toNat_natCast]

theorem specHashSampleSize_fifty : specHashSampleSize 50 20000 = 10000 := by
  rw [specHashSampleSize]
  have h : (50 : ℚ) * (20000 : ℕ) / 10000 * 100 = ((10000 : ℕ) : ℚ) := by
    push_cast
    norm_num
  rw [h, pyRound_natCast, Int.toNat_natCast]

/-- Claim C4 counterexample: the endowment size is not proportional to
the hash share within the configured space.  With `hashSpaceSize
H = 20000` and `hashShare = 50`, the code samples
`round(round(50, 2) * 100) = 5000` hashes, while the spec's
`H`-proportional formula gives `round(50 * 20000 / 10000 * 100) =
10000`. -/
theorem hash_size_not_scaled :
    hashSampleSize 50 = 5000 ∧ specHashSampleSize 50 20000 = 10000 ∧
      hashSampleSize 50 ≠ specHashSampleSize 50 20000 := by
  refine ⟨hashSampleSize_fifty, specHashSampleSize_fifty, ?_⟩
  rw [hashSampleSize_fifty, specHashSampleSize_fifty]
  omega

/-- Claim C4 (amended): every completed `calc_hashpower` gives adversary
`i` exactly `hashSampleSize share_i = round(round(share_i, 2) * 100)`
owned hashes — a size independent of the hash-space size `H`; for a
two-decimal share `n / 100` percent this is exactly `n`, which agrees
with the spec's proportional formula only at the default `H = 10000`
(in particular share 50.01 yields 5001 owned hashes for every `H`). -/
theorem hash_endowment_size (stake : Bool) (H T : ℕ)
    (hp st : List (ℚ × Finset ℕ)) (advs : List Adversary) (n : ℕ)
    (h : calc_hashpower stake H T hp st = some advs) :
    (∀ i, i < advs.length →
      (getA advs i).prob_block_hashes.card =
        hashSampleSize (hp.getD i (0, ∅)).1) ∧
    hashSampleSize ((n : ℚ) / 100) = n ∧
    specHashSampleSize ((n : ℚ) / 100) 10000 = n :=
  ⟨(calc_hashpower_some stake H T hp st advs h).2.1,
   hashSampleSize_natCast n, specHashSampleSize_default n⟩

/-- Witness for `hash_endowment_size` at a two-adversary zero-share
configuration and `n = 5001` (the share 50.01). -/
theorem hash_endowment_size_witness :
    (getA [mkBaseAdv 0 ∅, mkBaseAdv 0 ∅] 0).prob_block_hashes.card =
      hashSampleSize (([((0 : ℚ), (∅ : Finset ℕ)), (0, ∅)]).getD 0 (0, ∅)).1 ∧
    hashSampleSize (((5001 : ℕ) : ℚ) / 100) = 5001 ∧
    specHashSampleSize (((5001 : ℕ) : ℚ) / 100) 10000 = 5001 := by
  have h : calc_hashpower false 2 4 [((0 : ℚ), (∅ : Finset ℕ)), (0, ∅)] [] =
      some [mkBaseAdv 0 ∅, mkBaseAdv 0 ∅] := by
    simp [calc_hashpower, hashSampleSize_zero]
  have hh := hash_endowment_size false 2 4
    [((0 : ℚ), (∅ : Finset ℕ)), (0, ∅)] [] [mkBaseAdv 0 ∅, mkBaseAdv 0 ∅]
    5001 h
  exact ⟨hh.1 0 (by decide), hh.2.1, hh.2.2⟩

/-- Claim C5: for every adversary set whose stake shares sum to 100,
when stake-mode `calc_hashpower` completes, the `prob_tickets` sets of
distinct adversaries are pairwise disjoint and the sum of their sizes
is at most `ticketPoolSize` — each adversary's sample is drawn from the
shared pool and removed from it before the next adversary draws. -/
theorem tickets_disjoint (H T : ℕ) (hp st : List (ℚ × Finset ℕ))
    (advs : List Adversary)
    (hsum : (st.map (fun p => pyRound2 p.1)).sum = 100)
    (h : calc_hashpower true H T hp st = some advs) :
    List.Pairwise (fun a b => Disjoint a.prob_tickets b.prob_tickets) advs ∧
    (advs.map (fun a => a.prob_tickets.card)).sum ≤ T := by
  have ht := (calc_hashpower_some true H T hp st advs h).2.2 rfl
  obtain ⟨-, hdisj, hsum2⟩ :=
    assignTickets_disjoint T _ st (Finset.range T) advs ht
  exact ⟨hdisj, by simpa using hsum2⟩

/-- The two-adversary stake configuration used to witness
`tickets_disjoint`: zero hash shares with empty samples, stake shares
100 and 0 with ticket samples `{0, 1, 2, 3}` and `∅` in a pool of 4. -/
def c5hp : List (ℚ × Finset ℕ) := [(0, ∅), (0, ∅)]

def c5st : List (ℚ × Finset ℕ) := [(100, {0, 1, 2, 3}), (0, ∅)]

def c5advs : List Adversary :=
  [⟨0, 100, ∅, {0, 1, 2, 3}, [], [], [], 0, 0, 0⟩,
   ⟨0, 0, ∅, ∅, [], [], [], 0, 0, 0⟩]

/-- Witness for `tickets_disjoint` at the `c5hp`/`c5st` configuration. -/
theorem tickets_disjoint_witness :
    List.Pairwise (fun a b => Disjoint a.prob_tickets b.prob_tickets) c5advs ∧
    (c5advs.map (fun a => a.prob_tickets.card)).sum ≤ 4 := by
  have h : calc_hashpower true 2 4 c5hp c5st = some c5advs := by
    simp [calc_hashpower, assignTickets, hashSampleSize_zero,
      ticketSampleSize_hundred, ticketSampleSize_zero, c5hp, c5st, c5advs,
      mkBaseAdv]
    decide
  exact tickets_disjoint 2 4 c5hp c5st c5advs
    (by simp [c5st, pyRound2_hundred, pyRound2_zero]) h

/-! ## Claim theorems: batch aggregation -/

theorem calcAverages_foldl (a : String) :
    ∀ (runs : List RunSummary) (w : ℕ) (l : List ℚ),
      runs.foldl
        (fun (acc : ℕ × List ℚ) r =>
          ((if r.winner6 = a then acc.1 + 1 else acc.1),
            acc.2 ++ [(getSum r a : ℚ)])) (w, l) =
      (w + (runs.filter (fun r => decide (r.winner6 = a))).length,
       l ++ runs.map (fun r => (getSum r a : ℚ))) := by
  intro runs
  induction runs with
  | nil => simp
  | cons r rs ih =>
    intro w l
    rw [List.foldl_cons, ih, List.filter_cons]
    by_cases hw : r.winner6 = a
    · simp [hw]
      omega
    · simp [hw]

/-- Claim C8 (amended): for a batch of `N = simulationCount` runs, the
reported per-adversary win count is exactly the number of runs whose
recorded 6-block-diff winner is that adversary, and the reported mean
total blocks mined is the exact sum over runs divided by `N` and then
rounded half-to-even to six decimal places (`round(statistics.mean(...),
6)`), not the bare quotient. -/
theorem calc_averages_spec (runs : List RunSummary) (a : String) (N : ℕ)
    (hN : runs.length = N) (hpos : 0 < N) :
    (calcAveragesFor runs a).1 =
      (runs.filter (fun r => decide (r.winner6 = a))).length ∧
    (calcAveragesFor runs a).2 =
      round6 ((runs.map (fun r => (getSum r a : ℚ))).sum / (N : ℚ)) := by
  unfold calcAveragesFor
  rw [calcAverages_foldl a runs 0 []]
  constructor
  · simp
  · simp only [List.nil_append, statsMean, List.length_map, hN]

/-- The three-run batch refuting the unrounded-mean reading of claim
C8: adversary `A0` mines 1, 0 and 0 blocks in the three runs. -/
def c8runs : List RunSummary :=
  [⟨"A0", [("A0", 1)]⟩, ⟨"A1", [("A0", 0)]⟩, ⟨"A1", [("A0", 0)]⟩]

theorem round6_third : round6 (1 / 3 : ℚ) = 333333 / 1000000 := by
  rw [round6, pyRound]
  norm_num

/-- Claim C8 counterexample: over three runs in which `A0` mines 1, 0
and 0 blocks, the reported mean is `round(1/3, 6) = 0.333333`, which
differs from the exact quotient `1/3` by far more than floating
rounding; the reported mean is therefore not the plain sum divided by
`simulationCount`. -/
theorem calc_averages_rounds_to_six_places :
    (calcAveragesFor c8runs "A0").2 = 333333 / 1000000 ∧
    (calcAveragesFor c8runs "A0").2 ≠
      (c8runs.map (fun r => (getSum r "A0" : ℚ))).sum / (c8runs.length : ℚ) := by
  have hmean : (c8runs.map (fun r => (getSum r "A0" : ℚ))).sum /
      (c8runs.length : ℚ) = 1 / 3 := by
    simp [c8runs, getSum]
  have hval : (calcAveragesFor c8runs "A0").2 = 333333 / 1000000 := by
    unfold calcAveragesFor
    rw [calcAverages_foldl "A0" c8runs 0 []]
    have hs : statsMean ([] ++ c8runs.map (fun r => (getSum r "A0" : ℚ))) =
        1 / 3 := by
      rw [List.nil_append, statsMean, List.length_map]
      rw [hmean]
    dsimp only
    rw [hs, round6_third]
  refine ⟨hval, ?_⟩
  rw [hval, hmean]
  norm_num

/-- Witness for `calc_averages_spec` at the `c8runs` batch. -/
theorem calc_averages_spec_witness :
    (calcAveragesFor c8runs "A0").1 =
      (c8runs.filter (fun r => decide (r.winner6 = "A0"))).length ∧
    (calcAveragesFor c8runs "A0").2 =
      round6 ((c8runs.map (fun r => (getSum r "A0" : ℚ))).sum / ((3 : ℕ) : ℚ)) :=
  calc_averages_spec c8runs "A0" 3 rfl (by norm_num)
